import Mathlib

/-!
# uav_detect: the LocalizeSingle filter bank

A shallow embedding of `src/src/localize_single_nodelet.cpp`.

Conventions of the embedding

* `double` values are elements of a linearly ordered field `α` (exact
  arithmetic).  The two libm functions the program calls, `sqrt` and `log`, and
  the constant `std::numeric_limits<double>::max()` are supplied through the
  record `Libm`; theorems that need analytic facts instantiate `α := ℝ` with
  `Real.sqrt` and `Real.log`.
* Eigen fixed-size vectors and matrices are functions on `Fin n` and Mathlib
  matrices.  `Eigen::Matrix3d::inverse()` is the cofactor formula
  `det⁻¹ • adjugate`, which is how Eigen computes fixed-size 3x3 inverses.
* A default-constructed Eigen fixed-size matrix is not initialised.  The
  contents such a local happens to hold are an explicit input (`Uninit`).
* `std::list<Lkf>` is a Lean list; an iterator is a position in it, the
  position `length` being `end()`.  The list is circular through its end node,
  so decrementing `begin()` gives `end()` and incrementing `end()` gives
  `begin()`.
* `std::vector::at` out of range throws; a throwing run is `Except.error`.
-/

namespace uav_detect

/-! ## Numeric environment and parameters -/

/-- The libm functions and the numeric limit used by the program. -/
structure Libm (α : Type) where
  /-- `sqrt` of `<cmath>`. -/
  sqrt : α → α
  /-- `log` of `<cmath>`. -/
  log : α → α
  /-- `std::numeric_limits<double>::max()`. -/
  dbl_max : α

/-- Parameters loaded from ROS in `onInit` (the members `m_*`). -/
structure Params (α : Type) where
  m_world_frame : String
  m_xy_covariance_coeff : α
  m_z_covariance_coeff : α
  m_max_update_divergence : α
  m_max_lkf_uncertainty : α
  m_lkf_process_noise : α
  m_init_vel_cov : α

abbrev Vector3d (α : Type) := Fin 3 → α
abbrev Matrix3d (α : Type) := Matrix (Fin 3) (Fin 3) α
abbrev lkf_x_t (α : Type) := Fin 6 → α
abbrev lkf_z_t (α : Type) := Fin 3 → α
abbrev lkf_A_t (α : Type) := Matrix (Fin 6) (Fin 6) α
abbrev lkf_P_t (α : Type) := Matrix (Fin 3) (Fin 6) α
abbrev lkf_R_t (α : Type) := Matrix (Fin 6) (Fin 6) α
abbrev lkf_Q_t (α : Type) := Matrix (Fin 3) (Fin 3) α

/-- The struct `pos_cov_t`: one Measurement. -/
structure pos_cov_t (α : Type) where
  position : Vector3d α
  covariance : Matrix3d α

section Defs

variable {α : Type} [LinearOrderedField α]

/-- Index of a position component inside the 6-state: `block<3, .>(0, 0)`. -/
def posIdx (i : Fin 3) : Fin 6 := Fin.castAdd 3 i

/-- Index of a velocity component inside the 6-state: `block<3, .>(3, 3)`. -/
def velIdx (i : Fin 3) : Fin 6 := Fin.natAdd 3 i

/-- The Eigen expression `v.block<3, 1>(0, 0)`. -/
def block31 (v : lkf_x_t α) : Vector3d α := fun i => v (posIdx i)

/-- The Eigen expression `M.block<3, 3>(0, 0)`. -/
def block33 (M : Matrix (Fin 6) (Fin 6) α) : Matrix3d α :=
  Matrix.of fun i j => M (posIdx i) (posIdx j)

/-- The Eigen expression `M.block<3, 3>(0, 3)`, the position-velocity block. -/
def block33_pv (M : Matrix (Fin 6) (Fin 6) α) : Matrix3d α :=
  Matrix.of fun i j => M (posIdx i) (velIdx j)

/-- The Eigen expression `M.block<3, 3>(3, 0)`, the velocity-position block. -/
def block33_vp (M : Matrix (Fin 6) (Fin 6) α) : Matrix3d α :=
  Matrix.of fun i j => M (velIdx i) (posIdx j)

/-- The Eigen expression `M.block<3, 3>(3, 3)`, the velocity block. -/
def block33_vv (M : Matrix (Fin 6) (Fin 6) α) : Matrix3d α :=
  Matrix.of fun i j => M (velIdx i) (velIdx j)

/-- The Eigen expression `M.inverse()` at a fixed 3x3 size: cofactors over the determinant. -/
def inverse (M : Matrix3d α) : Matrix3d α := (M.det)⁻¹ • M.adjugate

/-! ## The Kalman filter object `mrs_lib::Lkf` -/

/-- Modelled from the spec: the class `mrs_lib::Lkf` (header `mrs_lib/Lkf.h`, not among the
sources).  A Track owns its state and covariance (spec section 3) together with the system
matrices handed to the constructor and the last measurement set by `setMeasurement`. -/
structure Lkf (α : Type) where
  /-- State vector, `getStates()`. -/
  x : lkf_x_t α
  /-- State covariance, `getCovariance()`. -/
  cov : Matrix (Fin 6) (Fin 6) α
  /-- Transition matrix. -/
  A : lkf_A_t α
  /-- Process noise. -/
  R : lkf_R_t α
  /-- Measurement noise. -/
  Q : lkf_Q_t α
  /-- Measurement projection. -/
  P : lkf_P_t α
  /-- Last measurement. -/
  mes : lkf_z_t α

/-- Modelled from the spec: `Lkf::setA` of `mrs_lib` stores the transition matrix. -/
def Lkf.setA (lkf : Lkf α) (A : lkf_A_t α) : Lkf α := { lkf with A := A }

/-- Modelled from the spec: `Lkf::setStates` of `mrs_lib` overwrites the state vector. -/
def Lkf.setStates (lkf : Lkf α) (x : lkf_x_t α) : Lkf α := { lkf with x := x }

/-- Modelled from the spec: `Lkf::setCovariance` of `mrs_lib` overwrites the covariance. -/
def Lkf.setCovariance (lkf : Lkf α) (cov : Matrix (Fin 6) (Fin 6) α) : Lkf α :=
  { lkf with cov := cov }

/-- Modelled from the spec: `Lkf::setMeasurement` of `mrs_lib` stores the measurement and its
covariance, "treating the measurement's covariance as observation noise" (spec 4.1). -/
def Lkf.setMeasurement (lkf : Lkf α) (z : lkf_z_t α) (Q : lkf_Q_t α) : Lkf α :=
  { lkf with mes := z, Q := Q }

/-- Modelled from the spec: `Lkf::iterateWithoutCorrection` of `mrs_lib`, the predict step of
spec 4.1 with no inputs: `x ← A·x; Σ ← A·Σ·Aᵗ + R`. -/
def Lkf.iterateWithoutCorrection (lkf : Lkf α) : Lkf α :=
  { lkf with
    x := lkf.A.mulVec lkf.x
    cov := lkf.A * lkf.cov * lkf.A.transpose + lkf.R }

/-- Modelled from the spec: `Lkf::doCorrection` of `mrs_lib`, the "standard Kalman update" of
spec 4.1: gain `K = Σ·Pᵗ·(P·Σ·Pᵗ + Q)⁻¹`, `x ← x + K·(z − P·x)`, `Σ ← (I − K·P)·Σ`. -/
def Lkf.doCorrection (lkf : Lkf α) : Lkf α :=
  let K : Matrix (Fin 6) (Fin 3) α :=
    lkf.cov * lkf.P.transpose * inverse (lkf.P * lkf.cov * lkf.P.transpose + lkf.Q)
  { lkf with
    x := lkf.x + K.mulVec (lkf.mes - lkf.P.mulVec lkf.x)
    cov := (1 - K * lkf.P) * lkf.cov }

/-! ## `kullback_leibler_divergence` (lines 466-471) -/

/-- The method `kullback_leibler_divergence`. -/
def kullback_leibler_divergence (m : Libm α) (mu0 : Vector3d α) (sigma0 : Matrix3d α)
    (mu1 : Vector3d α) (sigma1 : Matrix3d α) : α :=
  let k : ℕ := 2 -- number of dimensions
  let div : α := 0.5 * ((inverse sigma1 * sigma0).trace
      + Matrix.dotProduct (mu1 - mu0) ((inverse sigma1).mulVec (mu1 - mu0))
      - (k : α) + m.log (sigma1.det / sigma0.det))
  div

/-- The divergence formula as the specification words it (section 4.2): the constant
subtracted is the dimension 3. -/
def kl_spec (m : Libm α) (mu0 : Vector3d α) (sigma0 : Matrix3d α)
    (mu1 : Vector3d α) (sigma1 : Matrix3d α) : α :=
  0.5 * ((inverse sigma1 * sigma0).trace
      + Matrix.dotProduct (mu1 - mu0) ((inverse sigma1).mulVec (mu1 - mu0))
      - 3 + m.log (sigma1.det / sigma0.det))

/-! ## Uncertainty of a Track (lines 168-175) -/

/-- The method `calc_LKF_uncertainty`. -/
def calc_LKF_uncertainty (m : Libm α) (lkf : Lkf α) : α :=
  let position_covariance : Matrix3d α := block33 lkf.cov
  let determinant : α := position_covariance.det
  m.sqrt determinant

/-! ## `find_closest_measurement` (lines 185-208) -/

/-- The `for` loop of `find_closest_measurement`, from index `it` on, over the measurements
still to visit; the accumulator is `(min_divergence, min_div_it)`. -/
def find_closest_loop (m : Libm α) (lkf_pos : Vector3d α) (lkf_cov : Matrix3d α) :
    List (pos_cov_t α) → ℕ → α × ℕ → α × ℕ
  | [], _, acc => acc
  | pos_cov :: rest, it, (min_divergence, min_div_it) =>
    let det_pos := pos_cov.position
    let det_cov := pos_cov.covariance
    let divergence := kullback_leibler_divergence m det_pos det_cov lkf_pos lkf_cov
    if divergence < min_divergence then
      find_closest_loop m lkf_pos lkf_cov rest (it + 1) (divergence, it)
    else
      find_closest_loop m lkf_pos lkf_cov rest (it + 1) (min_divergence, min_div_it)

/-- The method `find_closest_measurement`: returns `(min_div_it, min_divergence_out)`. -/
def find_closest_measurement (m : Libm α) (lkf : Lkf α) (pos_covs : List (pos_cov_t α)) :
    ℕ × α :=
  let lkf_pos := block31 lkf.x
  let lkf_cov := block33 lkf.cov
  let r := find_closest_loop m lkf_pos lkf_cov pos_covs 0 (m.dbl_max, 0)
  (r.2, r.1)

/-- Divergence of a measurement against a Track's positional marginal, as
`find_closest_measurement` computes it. -/
def divergence_to (m : Libm α) (lkf : Lkf α) (pc : pos_cov_t α) : α :=
  kullback_leibler_divergence m pc.position pc.covariance (block31 lkf.x) (block33 lkf.cov)

/-! ## System matrices (lines 393-418) -/

/-- The method `create_A`. -/
def create_A (dt : α) : lkf_A_t α :=
  !![1, 0, 0, dt, 0, 0;
     0, 1, 0, 0, dt, 0;
     0, 0, 1, 0, 0, dt;
     0, 0, 0, 1, 0, 0;
     0, 0, 0, 0, 1, 0;
     0, 0, 0, 0, 0, 1]

/-- The method `create_P`. -/
def create_P : lkf_P_t α :=
  !![1, 0, 0, 0, 0, 0;
     0, 1, 0, 0, 0, 0;
     0, 0, 1, 0, 0, 0]

/-- The method `create_R`. -/
def create_R (p : Params α) : lkf_R_t α := p.m_lkf_process_noise • (1 : lkf_R_t α)

/-! ## `create_new_lkf` (lines 421-446) -/

/-- What the default-constructed (hence uninitialised) locals of one call of `create_new_lkf`
hold: `A`, `Q`, `init_state` and `init_state_cov`. -/
structure Uninit (α : Type) where
  A : lkf_A_t α
  Q : lkf_Q_t α
  init_state : lkf_x_t α
  init_state_cov : lkf_R_t α

/-- Modelled from the spec: the constructor of `mrs_lib::Lkf` (not among the sources) stores the
system matrices.  The state, covariance and measurement it starts from are never read by this
program: `create_new_lkf` overwrites the first two and every `doCorrection` is preceded by
`setMeasurement`. -/
def Lkf.ctor (A : lkf_A_t α) (R : lkf_R_t α) (Q : lkf_Q_t α) (P : lkf_P_t α) : Lkf α :=
  { x := 0, cov := 1, A := A, R := R, Q := Q, P := P, mes := 0 }

/-- The Eigen assignment `v.block<3, 1>(0, 0) = b`. -/
def setBlock31 (v : lkf_x_t α) (b : Vector3d α) : lkf_x_t α :=
  fun i => if h : i.val < 3 then b ⟨i.val, h⟩ else v i

/-- The Eigen assignment `M.block<3, 3>(0, 0) = B`. -/
def setBlock33_00 (M : Matrix (Fin 6) (Fin 6) α) (B : Matrix3d α) : Matrix (Fin 6) (Fin 6) α :=
  Matrix.of fun i j =>
    if h : i.val < 3 ∧ j.val < 3 then B ⟨i.val, h.1⟩ ⟨j.val, h.2⟩ else M i j

/-- The Eigen assignment `M.block<3, 3>(3, 3) = B`. -/
def setBlock33_33 (M : Matrix (Fin 6) (Fin 6) α) (B : Matrix3d α) : Matrix (Fin 6) (Fin 6) α :=
  Matrix.of fun i j =>
    if h : 3 ≤ i.val ∧ 3 ≤ j.val then
      B ⟨i.val - 3, by have := i.isLt; omega⟩ ⟨j.val - 3, by have := j.isLt; omega⟩
    else M i j

/-- The method `create_new_lkf`; `u` is what its uninitialised locals hold. -/
def create_new_lkf (p : Params α) (u : Uninit α) (lkfs : List (Lkf α))
    (initialization : pos_cov_t α) : List (Lkf α) :=
  let A : lkf_A_t α := u.A -- changes in dependence on the measured dt, so leave blank for now
  let P : lkf_P_t α := create_P
  let R : lkf_R_t α := create_R p
  let Q : lkf_Q_t α := u.Q -- depends on the measurement, so leave blank for now
  let new_lkf : Lkf α := Lkf.ctor A R Q P
  -- Initialize the LKF using the new measurement
  let init_state : lkf_x_t α := setBlock31 u.init_state initialization.position
  let init_state_cov : lkf_R_t α :=
    setBlock33_33 (setBlock33_00 u.init_state_cov initialization.covariance)
      (p.m_init_vel_cov • (1 : Matrix3d α))
  lkfs ++ [(new_lkf.setStates init_state).setCovariance init_state_cov]

/-! ## `lkf_update` (lines 448-463) -/

/-- The method `lkf_update`, the Predictor tick; `dt` is the elapsed time read from the timer
event. -/
def lkf_update (dt : α) (m_lkfs : List (Lkf α)) : List (Lkf α) :=
  let A := create_A dt
  m_lkfs.map fun lkf => (lkf.setA A).iterateWithoutCorrection

/-! ## `create_message` (lines 211-244) -/

/-- The message `geometry_msgs::PoseWithCovarianceStamped`, its fields flattened.  A freshly
constructed ROS message has every number zero and every string empty. -/
structure PoseWithCovarianceStamped (α : Type) where
  frame_id : String
  stamp : ℕ
  position_x : α
  position_y : α
  position_z : α
  orientation_x : α
  orientation_y : α
  orientation_z : α
  orientation_w : α
  /-- Row-major 6x6 covariance, 36 entries. -/
  covariance : List α

/-- The method `create_message`. -/
def create_message (p : Params α) (lkf : Lkf α) (stamp : ℕ) : PoseWithCovarianceStamped α :=
  let position := block31 lkf.x
  let covariance := block33 lkf.cov
  let cov_out : List α :=
    (List.range 6).foldl (fun arr r =>
      (List.range 6).foldl (fun arr c =>
        if h : r < 3 ∧ c < 3 then arr.set (r * 6 + c) (covariance ⟨r, h.1⟩ ⟨c, h.2⟩)
        else if r = c then arr.set (r * 6 + c) 666
        else arr) arr) (List.replicate 36 0)
  { frame_id := p.m_world_frame
    stamp := stamp
    position_x := position 0
    position_y := position 1
    position_z := position 2
    orientation_x := 0
    orientation_y := 0
    orientation_z := 0
    orientation_w := 1
    covariance := cov_out }

/-! ## `main_loop` (lines 246-369) -/

/-- Ways a run can fail to return normally. -/
inductive Fault where
  /-- `std::out_of_range` thrown by `std::vector::at`. -/
  | out_of_range
  /-- An iterator or pointer that designates no element was dereferenced. -/
  | bad_iterator
  /-- The iteration bound given to a loop of the embedding was reached. -/
  | out_of_fuel
  deriving DecidableEq, Repr

/-- Lines 301-318: assign a measurement to the LKF based on the smallest divergence and update
the LKF.  Returns the LKF and `meas_used` after the block. -/
def assign_measurement (m : Libm α) (p : Params α) (pos_covs : List (pos_cov_t α))
    (lkf : Lkf α) (meas_used : List ℤ) : Except Fault (Lkf α × List ℤ) :=
  let r := find_closest_measurement m lkf pos_covs
  let closest_it := r.1
  let divergence := r.2
  -- Evaluate whether the divergence is small enough to justify the update
  if divergence < p.m_max_update_divergence then
    match pos_covs[closest_it]? with
    | none => .error .out_of_range
    | some closest =>
      let closest_pos := closest.position
      let closest_cov := closest.covariance
      let lkf1 := (lkf.setMeasurement closest_pos closest_cov).doCorrection
      match meas_used[closest_it]? with
      | none => .error .out_of_range
      | some used => .ok (lkf1, meas_used.set closest_it (used + 1))
  else
    .ok (lkf, meas_used)

/-- The iterator operation `it++` on a list of the given length. -/
def it_incr (length it : ℕ) : ℕ := if it = length then 0 else it + 1

/-- The iterator operation `it--` on a list of the given length. -/
def it_decr (length it : ℕ) : ℕ := if it = 0 then length else it - 1

/-- The variables of the pass over `m_lkfs` (lines 293-337). -/
structure PassState (α : Type) where
  m_lkfs : List (Lkf α)
  /-- The loop iterator, a position in `m_lkfs`. -/
  it : ℕ
  meas_used : List ℤ
  min_uncertainty : α
  /-- The observer pointer `most_certain_lkf`, as the position of the element it designates;
  `none` while `most_certain_lkf_found` is false. -/
  most_certain_lkf : Option ℕ

/-- One iteration of the `for` loop at lines 297-336, its `it++` included. -/
def pass_body (m : Libm α) (p : Params α) (pos_covs : List (pos_cov_t α))
    (s : PassState α) : Except Fault (PassState α) :=
  match s.m_lkfs[s.it]? with
  | none => .error .bad_iterator
  | some lkf0 =>
    match assign_measurement m p pos_covs lkf0 s.meas_used with
    | .error e => .error e
    | .ok (lkf, meas_used) =>
      let lkfs := s.m_lkfs.set s.it lkf
      -- Check if the uncertainty of this LKF is too high and if so, delete it
      let uncertainty := calc_LKF_uncertainty m lkf
      if uncertainty > p.m_max_lkf_uncertainty then
        -- `it = m_lkfs.erase(it); it--;` and then `it++`; positions behind the erased
        -- element move down by one
        let erased := lkfs.eraseIdx s.it
        .ok { m_lkfs := erased
              it := it_incr erased.length (it_decr erased.length s.it)
              meas_used := meas_used
              min_uncertainty := s.min_uncertainty
              most_certain_lkf := s.most_certain_lkf.map fun q => if s.it < q then q - 1 else q }
      else if uncertainty < s.min_uncertainty then
        .ok { m_lkfs := lkfs
              it := it_incr lkfs.length s.it
              meas_used := meas_used
              min_uncertainty := uncertainty
              most_certain_lkf := some s.it }
      else
        .ok { m_lkfs := lkfs
              it := it_incr lkfs.length s.it
              meas_used := meas_used
              min_uncertainty := s.min_uncertainty
              most_certain_lkf := s.most_certain_lkf }

/-- The `for` loop at lines 297-336: iterate while `it != std::end(m_lkfs)`, at most `fuel`
times. -/
def pass_loop (m : Libm α) (p : Params α) (pos_covs : List (pos_cov_t α)) :
    ℕ → PassState α → Except Fault (PassState α)
  | 0, s => if s.it = s.m_lkfs.length then .ok s else .error .out_of_fuel
  | fuel + 1, s =>
    if s.it = s.m_lkfs.length then .ok s
    else
      match pass_body m p pos_covs s with
      | .error e => .error e
      | .ok s1 => pass_loop m p pos_covs fuel s1

/-- Lines 293-337: process the LKFs, assign measurements and kick out too uncertain ones, find
the most certain one.  Every iteration handles one element, so the length of the list bounds
the number of iterations. -/
def process_lkfs (m : Libm α) (p : Params α) (pos_covs : List (pos_cov_t α))
    (m_lkfs : List (Lkf α)) (meas_used : List ℤ) : Except Fault (PassState α) :=
  let s0 : PassState α :=
    { m_lkfs := m_lkfs, it := 0, meas_used := meas_used,
      min_uncertainty := m.dbl_max, most_certain_lkf := none }
  if !m_lkfs.isEmpty then pass_loop m p pos_covs m_lkfs.length s0 else .ok s0

/-- Lines 340-349: instantiate new LKFs for unused measurements, from index `it` on.  The
`it`-th call of `create_new_lkf` finds `uninit it` in its uninitialised locals. -/
def spawn_loop (p : Params α) (uninit : ℕ → Uninit α) (pos_covs : List (pos_cov_t α))
    (meas_used : List ℤ) : ℕ → ℕ → List (Lkf α) → Except Fault (List (Lkf α))
  | 0, _, lkfs => .ok lkfs
  | todo + 1, it, lkfs =>
    match meas_used[it]? with
    | none => .error .out_of_range
    | some used =>
      if used < 1 then
        match pos_covs[it]? with
        | none => .error .out_of_range
        | some pc => spawn_loop p uninit pos_covs meas_used todo (it + 1)
            (create_new_lkf p (uninit it) lkfs pc)
      else spawn_loop p uninit pos_covs meas_used todo (it + 1) lkfs

/-- What one call of `main_loop` leaves behind. -/
structure CycleResult (α : Type) where
  /-- The Bank `m_lkfs` after the call. -/
  m_lkfs : List (Lkf α)
  /-- The pointer `most_certain_lkf` when `most_certain_lkf_found`, as a position in `m_lkfs`. -/
  most_certain_lkf : Option ℕ
  /-- The message published on `localized_uav`, if any. -/
  published : Option (PoseWithCovarianceStamped α)

/-- The method `main_loop` from line 260 on, for a call that has new detections: `tf_ok` is the
result of `get_transform_to_world`, `stamp` the detections' time stamp and `pos_covs` the
positions and covariances computed from the detections at lines 280-289. -/
def main_loop (m : Libm α) (p : Params α) (uninit : ℕ → Uninit α) (tf_ok : Bool) (stamp : ℕ)
    (pos_covs : List (pos_cov_t α)) (m_lkfs : List (Lkf α)) : Except Fault (CycleResult α) :=
  if !tf_ok then
    .ok { m_lkfs := m_lkfs, most_certain_lkf := none, published := none }
  else
    let n_meas := pos_covs.length
    let meas_used : List ℤ := List.replicate n_meas 0
    match process_lkfs m p pos_covs m_lkfs meas_used with
    | .error e => .error e
    | .ok s =>
      match spawn_loop p uninit pos_covs s.meas_used n_meas 0 s.m_lkfs with
      | .error e => .error e
      | .ok lkfs =>
        -- Publish message of the most likely LKF (if found)
        match s.most_certain_lkf with
        | none => .ok { m_lkfs := lkfs, most_certain_lkf := none, published := none }
        | some q =>
          match lkfs[q]? with
          | none => .error .bad_iterator
          | some lkf =>
            .ok { m_lkfs := lkfs, most_certain_lkf := some q,
                  published := some (create_message p lkf stamp) }

/-! ## The pass over the Bank as a recursion over the Tracks

The definitions below describe the pass of lines 293-337 Track by Track; the theorems of the
next section prove that the iterator loop `pass_loop` computes exactly this. -/

/-- The variables of the pass other than the iterator: the Tracks already visited and kept,
`meas_used`, `min_uncertainty` and `most_certain_lkf`. -/
structure PassAcc (α : Type) where
  kept : List (Lkf α)
  meas_used : List ℤ
  min_uncertainty : α
  most_certain_lkf : Option ℕ

/-- The pass over the Tracks still to visit, in order. -/
def pass_fold (m : Libm α) (p : Params α) (pos_covs : List (pos_cov_t α)) :
    List (Lkf α) → PassAcc α → Except Fault (PassAcc α)
  | [], acc => .ok acc
  | lkf0 :: rest, acc =>
    match assign_measurement m p pos_covs lkf0 acc.meas_used with
    | .error e => .error e
    | .ok (lkf, meas_used) =>
      if calc_LKF_uncertainty m lkf > p.m_max_lkf_uncertainty then
        pass_fold m p pos_covs rest { acc with meas_used := meas_used }
      else if calc_LKF_uncertainty m lkf < acc.min_uncertainty then
        pass_fold m p pos_covs rest
          { kept := acc.kept ++ [lkf], meas_used := meas_used,
            min_uncertainty := calc_LKF_uncertainty m lkf,
            most_certain_lkf := some acc.kept.length }
      else
        pass_fold m p pos_covs rest
          { acc with kept := acc.kept ++ [lkf], meas_used := meas_used }

/-- The state of the iterator loop that corresponds to an accumulator once every Track has
been visited. -/
def PassAcc.toState (acc : PassAcc α) : PassState α :=
  { m_lkfs := acc.kept, it := acc.kept.length, meas_used := acc.meas_used,
    min_uncertainty := acc.min_uncertainty, most_certain_lkf := acc.most_certain_lkf }

/-- A Track as the association block (lines 301-318) leaves it. -/
def after_association (m : Libm α) (p : Params α) (pos_covs : List (pos_cov_t α))
    (lkf : Lkf α) : Lkf α :=
  match assign_measurement m p pos_covs lkf (List.replicate pos_covs.length 0) with
  | .ok r => r.1
  | .error _ => lkf

/-- The vector `meas_used` as the association block for one Track leaves it. -/
def count_use (m : Libm α) (p : Params α) (pos_covs : List (pos_cov_t α))
    (meas_used : List ℤ) (lkf : Lkf α) : List ℤ :=
  match assign_measurement m p pos_covs lkf meas_used with
  | .ok r => r.2
  | .error _ => meas_used

/-- The Track is corrected in the cycle, and from the measurement at index `i`. -/
def corrected_from (m : Libm α) (p : Params α) (pos_covs : List (pos_cov_t α))
    (i : ℕ) (lkf : Lkf α) : Bool :=
  decide ((find_closest_measurement m lkf pos_covs).2 < p.m_max_update_divergence)
    && decide ((find_closest_measurement m lkf pos_covs).1 = i)

/-- The Track passes the correction gate: its minimum divergence is strictly below
`max_update_divergence`. -/
def passes_gate (m : Libm α) (p : Params α) (pos_covs : List (pos_cov_t α))
    (lkf : Lkf α) : Bool :=
  decide ((find_closest_measurement m lkf pos_covs).2 < p.m_max_update_divergence)

/-- The Track is not pruned: its uncertainty does not exceed `max_lkf_uncertainty`. -/
def stays (m : Libm α) (p : Params α) (lkf : Lkf α) : Bool :=
  !decide (calc_LKF_uncertainty m lkf > p.m_max_lkf_uncertainty)

/-- The Tracks remaining after correction and pruning, in Bank order. -/
def survivors (m : Libm α) (p : Params α) (pos_covs : List (pos_cov_t α))
    (m_lkfs : List (Lkf α)) : List (Lkf α) :=
  (m_lkfs.map (after_association m p pos_covs)).filter (stays m p)

/-- The search for the most certain Track as it runs over the Tracks that are kept, from
position `pos` on; the accumulator is `(min_uncertainty, most_certain_lkf)`. -/
def select_loop (m : Libm α) : List (Lkf α) → ℕ → α × Option ℕ → α × Option ℕ
  | [], _, acc => acc
  | lkf :: rest, pos, (min_uncertainty, most_certain_lkf) =>
    if calc_LKF_uncertainty m lkf < min_uncertainty then
      select_loop m rest (pos + 1) (calc_LKF_uncertainty m lkf, some pos)
    else
      select_loop m rest (pos + 1) (min_uncertainty, most_certain_lkf)

/-- The Tracks appended by lines 340-349 when the use counts are `meas_used`. -/
def spawned (p : Params α) (uninit : ℕ → Uninit α) (meas_used : List ℤ) :
    List (pos_cov_t α) → ℕ → List (Lkf α)
  | [], _ => []
  | pc :: rest, it =>
    (if meas_used.getD it 0 < 1 then create_new_lkf p (uninit it) [] pc else [])
      ++ spawned p uninit meas_used rest (it + 1)

/-- The use counts `meas_used` at the end of the pass over the Bank. -/
def final_meas_used (m : Libm α) (p : Params α) (pos_covs : List (pos_cov_t α))
    (m_lkfs : List (Lkf α)) : List ℤ :=
  m_lkfs.foldl (count_use m p pos_covs) (List.replicate pos_covs.length 0)

/-- The position of the Track the pass selects among the Tracks that remain, if any. -/
def chosen (m : Libm α) (p : Params α) (pos_covs : List (pos_cov_t α))
    (m_lkfs : List (Lkf α)) : Option ℕ :=
  (select_loop m (survivors m p pos_covs m_lkfs) 0 (m.dbl_max, none)).2

/-! ## `calc_position_covariance` and `rotate_covariance` (lines 123-166) -/

/-- The method `rotate_covariance`: it returns the rotated matrix and changes neither
argument (both are `const` references). -/
def rotate_covariance (covariance : Matrix3d α) (rotation : Matrix3d α) : Matrix3d α :=
  rotation * covariance * rotation.transpose

/-- The Eigen expression `v.norm()`. -/
def norm3 (m : Libm α) (v : Vector3d α) : α :=
  m.sqrt (v 0 * v 0 + v 1 * v 1 + v 2 * v 2)

/-- The Eigen expression `v.normalized()`: the vector over its norm, or the vector itself
when its squared norm is not positive. -/
def normalized (m : Libm α) (v : Vector3d α) : Vector3d α :=
  let z := v 0 * v 0 + v 1 * v 1 + v 2 * v 2
  if z > 0 then fun i => v i / m.sqrt z else v

/-- The Eigen expression `a.cross(b)`. -/
def cross (a b : Vector3d α) : Vector3d α :=
  ![a 1 * b 2 - a 2 * b 1, a 2 * b 0 - a 0 * b 2, a 0 * b 1 - a 1 * b 0]

/-- The covariance prepared at lines 128-134 of `calc_position_covariance`, before any
rotation: the identity with the diagonal overwritten. -/
def prepared_covariance (m : Libm α) (p : Params α) (position_sf : Vector3d α) : Matrix3d α :=
  let zz : α := position_sf 2 * m.sqrt (position_sf 2) * p.m_z_covariance_coeff
  let zz1 : α := if zz < 0.33 * p.m_z_covariance_coeff then 0.33 * p.m_z_covariance_coeff else zz
  !![p.m_xy_covariance_coeff, 0, 0;
     0, p.m_xy_covariance_coeff, 0;
     0, 0, zz1]

/-- The rotation `vec_rot` built at lines 136-157 of `calc_position_covariance`. -/
def direction_rotation (m : Libm α) (position_sf : Vector3d α) : Matrix3d α :=
  let tol : α := 1e-9
  let a : Vector3d α := ![0, 0, 1]
  let b : Vector3d α := normalized m position_sf
  let v : Vector3d α := cross a b
  let sin_ab : α := norm3 m v
  let cos_ab : α := Matrix.dotProduct a b
  if sin_ab < tol then -- unprobable, but possible - then it is identity or 180deg
    if cos_ab + 1 < tol then -- that would be 180deg
      !![-1, 0, 0;
         0, -1, 0;
         0, 0, 1]
    else 1 -- otherwise its identity
  else -- otherwise just construct the matrix
    let v_x : Matrix3d α :=
      !![0, -(v 2), v 1;
         v 2, 0, -(v 0);
         -(v 1), v 0, 0]
    1 + v_x + ((1 - cos_ab) / (sin_ab * sin_ab)) • (v_x * v_x)

/-- The method `calc_position_covariance`.  The call of `rotate_covariance` at line 158 is a
statement of its own: its result is not assigned, and `pos_cov` is returned as prepared. -/
def calc_position_covariance (m : Libm α) (p : Params α) (position_sf : Vector3d α) :
    Matrix3d α :=
  let pos_cov : Matrix3d α := prepared_covariance m p position_sf
  let vec_rot : Matrix3d α := direction_rotation m position_sf
  let _discarded : Matrix3d α := rotate_covariance pos_cov vec_rot
  pos_cov

/-- The covariance as the documentation of `calc_position_covariance` words it: the prepared
covariance rotated to point in the direction of the estimated position. -/
def calc_position_covariance_spec (m : Libm α) (p : Params α) (position_sf : Vector3d α) :
    Matrix3d α :=
  rotate_covariance (prepared_covariance m p position_sf) (direction_rotation m position_sf)

/-! ## The Tracks the pass examines -/

/-- The Tracks dereferenced by `auto& lkf = *it` in the successive iterations of the `for`
loop at lines 297-336, in the order of the iterations, for at most `fuel` iterations. -/
def pass_visits (m : Libm α) (p : Params α) (pos_covs : List (pos_cov_t α)) :
    ℕ → PassState α → List (Lkf α)
  | 0, _ => []
  | fuel + 1, s =>
    if s.it = s.m_lkfs.length then []
    else
      match s.m_lkfs[s.it]? with
      | none => []
      | some lkf0 =>
        match pass_body m p pos_covs s with
        | .error _ => [lkf0]
        | .ok s1 => lkf0 :: pass_visits m p pos_covs fuel s1

/-- The state of the iterator loop when the Tracks of `acc.kept` have been visited and kept
and those of `todo` are still to visit. -/
def PassAcc.stateAt (acc : PassAcc α) (todo : List (Lkf α)) : PassState α :=
  { m_lkfs := acc.kept ++ todo, it := acc.kept.length, meas_used := acc.meas_used,
    min_uncertainty := acc.min_uncertainty, most_certain_lkf := acc.most_certain_lkf }

/-- One Predictor tick on one Track: the body of the loop of `lkf_update`. -/
def predict_track (dt : α) (lkf : Lkf α) : Lkf α :=
  (lkf.setA (create_A dt)).iterateWithoutCorrection

/-! ## Fixtures for concrete evaluations -/

/-- A Track at the origin, at rest, with unit covariance. -/
def unit_track : Lkf α := ⟨0, 1, 1, 0, 0, create_P, 0⟩

/-- A measurement at the origin with unit covariance. -/
def unit_measurement : pos_cov_t α := ⟨0, 1⟩

/-- Parameters with the given gate, pruning threshold and process noise. -/
def test_params (gate threshold noise : α) : Params α :=
  { m_world_frame := "local_origin", m_xy_covariance_coeff := 1, m_z_covariance_coeff := 1,
    m_max_update_divergence := gate, m_max_lkf_uncertainty := threshold,
    m_lkf_process_noise := noise, m_init_vel_cov := 1 }

/-- Uninitialised locals that happen to hold zeros. -/
def zero_uninit : Uninit α := ⟨0, 0, 0, 0⟩

/-- A covariance whose position and velocity errors are perfectly anticorrelated:
`[[I, -I], [-I, I]]`. -/
def anticorrelated_cov : Matrix (Fin 6) (Fin 6) α :=
  Matrix.of fun i j =>
    if i = j then 1 else if i.val + 3 = j.val ∨ j.val + 3 = i.val then -1 else 0

/-- A Track at rest at the origin with the anticorrelated covariance and no process noise. -/
def anticorrelated_track : Lkf α := ⟨0, anticorrelated_cov, 1, 0, 0, create_P, 0⟩

/-- A Track at the origin moving with unit velocity along the first axis. -/
def moving_track : Lkf α := ⟨![0, 0, 0, 1, 0, 0], 1, 1, 0, 0, create_P, 0⟩

end Defs

section Theorems

variable {α : Type} [LinearOrderedField α]

/-- C1 (the code evaluated): on every input the code's divergence is the specified divergence plus
one half, because the code subtracts `k = 2` where the formula for 3-D Gaussians subtracts 3. -/
theorem kullback_leibler_divergence_eq_spec_add_half (m : Libm α) (mu0 : Vector3d α)
    (sigma0 : Matrix3d α) (mu1 : Vector3d α) (sigma1 : Matrix3d α) :
    kullback_leibler_divergence m mu0 sigma0 mu1 sigma1
      = kl_spec m mu0 sigma0 mu1 sigma1 + 1 / 2 := by
  simp only [kullback_leibler_divergence, kl_spec]
  norm_num
  ring

/-- For two equal standard Gaussians the code returns one half where the formula of the
specification gives zero. -/
theorem kullback_leibler_divergence_standard (M : ℝ) :
    kullback_leibler_divergence ⟨Real.sqrt, Real.log, M⟩ 0 1 0 1 = 1 / 2
      ∧ kl_spec ⟨Real.sqrt, Real.log, M⟩ 0 1 0 1 = 0 := by
  simp [kullback_leibler_divergence, kl_spec, inverse, Matrix.trace, Fin.sum_univ_three]
  norm_num

/-! ### `find_closest_measurement` -/

theorem find_closest_loop_le (m : Libm α) (lkf : Lkf α) (l : List (pos_cov_t α)) :
    ∀ (it : ℕ) (acc : α × ℕ),
      (find_closest_loop m (block31 lkf.x) (block33 lkf.cov) l it acc).1 ≤ acc.1
      ∧ ∀ pc ∈ l, (find_closest_loop m (block31 lkf.x) (block33 lkf.cov) l it acc).1
          ≤ divergence_to m lkf pc := by
  induction l with
  | nil => intro it acc; simp [find_closest_loop]
  | cons pc rest ih =>
    intro it acc
    obtain ⟨mn, idx⟩ := acc
    simp only [find_closest_loop]
    split_ifs with h
    · obtain ⟨h1, h2⟩ := ih (it + 1)
        (kullback_leibler_divergence m pc.position pc.covariance (block31 lkf.x)
          (block33 lkf.cov), it)
      refine ⟨le_trans h1 (le_of_lt h), ?_⟩
      intro q hq
      rcases List.mem_cons.1 hq with rfl | hq
      · exact h1
      · exact h2 q hq
    · obtain ⟨h1, h2⟩ := ih (it + 1) (mn, idx)
      refine ⟨h1, ?_⟩
      intro q hq
      rcases List.mem_cons.1 hq with rfl | hq
      · exact le_trans h1 (not_lt.1 h)
      · exact h2 q hq

theorem find_closest_loop_idx (m : Libm α) (lkf : Lkf α) (l : List (pos_cov_t α)) :
    ∀ (it : ℕ) (acc : α × ℕ),
      find_closest_loop m (block31 lkf.x) (block33 lkf.cov) l it acc = acc
      ∨ ∃ j, ∃ h : j < l.length,
          (find_closest_loop m (block31 lkf.x) (block33 lkf.cov) l it acc).2 = it + j
          ∧ (find_closest_loop m (block31 lkf.x) (block33 lkf.cov) l it acc).1
              = divergence_to m lkf l[j] := by
  induction l with
  | nil => intro it acc; left; simp [find_closest_loop]
  | cons pc rest ih =>
    intro it acc
    obtain ⟨mn, idx⟩ := acc
    simp only [find_closest_loop]
    split_ifs with h
    · right
      rcases ih (it + 1)
        (kullback_leibler_divergence m pc.position pc.covariance (block31 lkf.x)
          (block33 lkf.cov), it) with h0 | ⟨j, hj, h1, h2⟩
      · refine ⟨0, by simp, ?_, ?_⟩
        · rw [h0]; rfl
        · rw [h0]; rfl
      · refine ⟨j + 1, by simpa using hj, ?_, ?_⟩
        · rw [h1]; omega
        · rw [h2]; simp
    · rcases ih (it + 1) (mn, idx) with h0 | ⟨j, hj, h1, h2⟩
      · left; exact h0
      · right
        refine ⟨j + 1, by simpa using hj, ?_, ?_⟩
        · rw [h1]; omega
        · rw [h2]; simp

/-- C2: for a non-empty list of measurements whose divergences are well defined (each is a
finite `double`, so at most `std::numeric_limits<double>::max()`), `find_closest_measurement`
returns an index in range, `min_divergence_out` is the divergence of the measurement at that
index against the Track's positional marginal, and no measurement of the list has a smaller
divergence. -/
theorem find_closest_measurement_minimal (m : Libm α) (lkf : Lkf α)
    (pos_covs : List (pos_cov_t α)) (hne : pos_covs ≠ [])
    (hdef : ∀ pc ∈ pos_covs, divergence_to m lkf pc ≤ m.dbl_max) :
    ∃ h : (find_closest_measurement m lkf pos_covs).1 < pos_covs.length,
      (find_closest_measurement m lkf pos_covs).2
          = kullback_leibler_divergence m
              (pos_covs[(find_closest_measurement m lkf pos_covs).1]).position
              (pos_covs[(find_closest_measurement m lkf pos_covs).1]).covariance
              (block31 lkf.x) (block33 lkf.cov)
      ∧ ∀ j, ∀ hj : j < pos_covs.length,
          (find_closest_measurement m lkf pos_covs).2
            ≤ kullback_leibler_divergence m (pos_covs[j]).position (pos_covs[j]).covariance
                (block31 lkf.x) (block33 lkf.cov) := by
  have hle := find_closest_loop_le m lkf pos_covs 0 (m.dbl_max, 0)
  have hall : ∀ j, ∀ hj : j < pos_covs.length,
      (find_closest_measurement m lkf pos_covs).2 ≤ divergence_to m lkf pos_covs[j] :=
    fun j hj => hle.2 _ (List.getElem_mem hj)
  have hpos : 0 < pos_covs.length := List.length_pos.2 hne
  rcases find_closest_loop_idx m lkf pos_covs 0 (m.dbl_max, 0) with h0 | ⟨j, hj, h1, h2⟩
  · have hidx : (find_closest_measurement m lkf pos_covs).1 = 0 := by
      simp [find_closest_measurement, h0]
    have hval : (find_closest_measurement m lkf pos_covs).2 = m.dbl_max := by
      simp [find_closest_measurement, h0]
    refine ⟨by rw [hidx]; exact hpos, ?_, hall⟩
    have h3 := hall 0 hpos
    have h4 := hdef _ (List.getElem_mem hpos)
    rw [hval] at h3
    simp only [hidx]
    rw [hval]
    exact le_antisymm h3 h4
  · have hidx : (find_closest_measurement m lkf pos_covs).1 = j := by
      simp [find_closest_measurement, h1]
    refine ⟨by rw [hidx]; exact hj, ?_, hall⟩
    simp only [hidx]
    simpa [find_closest_measurement, divergence_to] using h2

theorem block33_one : block33 (1 : Matrix (Fin 6) (Fin 6) α) = 1 := by
  ext i j
  have h : (Fin.castAdd 3 i = Fin.castAdd 3 j) ↔ i = j := by
    simp [Fin.ext_iff]
  simp [block33, posIdx, Matrix.one_apply, h]

theorem block31_zero : block31 (0 : lkf_x_t α) = 0 := by
  ext i
  simp [block31]

/-- C2 witness: a Track at the origin with unit covariance and one standard measurement. -/
theorem find_closest_measurement_minimal_witness :
    (find_closest_measurement ⟨Real.sqrt, Real.log, 2 ^ 1024⟩ ⟨0, 1, 1, 0, 0, create_P, 0⟩
        [(⟨0, 1⟩ : pos_cov_t ℝ)]).1 < 1
    ∧ (find_closest_measurement ⟨Real.sqrt, Real.log, 2 ^ 1024⟩ ⟨0, 1, 1, 0, 0, create_P, 0⟩
        [(⟨0, 1⟩ : pos_cov_t ℝ)]).2 ≤ 1 / 2 := by
  obtain ⟨h, _, h2⟩ := find_closest_measurement_minimal
    (⟨Real.sqrt, Real.log, 2 ^ 1024⟩ : Libm ℝ) ⟨0, 1, 1, 0, 0, create_P, 0⟩
    [(⟨0, 1⟩ : pos_cov_t ℝ)] (by simp)
    (by
      intro pc hpc
      rw [List.mem_singleton.1 hpc]
      simp only [divergence_to, block33_one, block31_zero,
        (kullback_leibler_divergence_standard (2 ^ 1024)).1]
      norm_num)
  refine ⟨by simpa using h, ?_⟩
  have h3 := h2 0 (by simp)
  simp only [List.getElem_cons_zero, block33_one, block31_zero,
    (kullback_leibler_divergence_standard (2 ^ 1024)).1] at h3
  exact h3

/-! ### The iterator loop visits every Track once -/

theorem it_step_erase (len k : ℕ) (h : k ≤ len) : it_incr len (it_decr len k) = k := by
  unfold it_incr it_decr
  by_cases hk : k = 0
  · simp [hk]
  · rw [if_neg hk, if_neg (by omega)]
    omega

theorem it_step_keep (len k : ℕ) (h : k < len) : it_incr len k = k + 1 := by
  unfold it_incr
  rw [if_neg (by omega)]

theorem pass_loop_done (m : Libm α) (p : Params α) (pos_covs : List (pos_cov_t α))
    (fuel : ℕ) (s : PassState α) (h : s.it = s.m_lkfs.length) :
    pass_loop m p pos_covs fuel s = .ok s := by
  cases fuel <;> simp [pass_loop, h]

/-- The iterator loop, started at the first Track still to visit with enough fuel, computes
the pass described Track by Track, faults included. -/
theorem pass_loop_eq_fold (m : Libm α) (p : Params α) (pos_covs : List (pos_cov_t α))
    (todo : List (Lkf α)) :
    ∀ (fuel : ℕ) (acc : PassAcc α), todo.length ≤ fuel →
      (∀ q, acc.most_certain_lkf = some q → q < acc.kept.length) →
      pass_loop m p pos_covs fuel
          { m_lkfs := acc.kept ++ todo, it := acc.kept.length, meas_used := acc.meas_used,
            min_uncertainty := acc.min_uncertainty, most_certain_lkf := acc.most_certain_lkf }
        = (pass_fold m p pos_covs todo acc).map PassAcc.toState := by
  induction todo with
  | nil =>
    intro fuel acc _ _
    rw [pass_loop_done _ _ _ _ _ (by simp)]
    simp [pass_fold, PassAcc.toState, Except.map]
  | cons lkf0 rest ih =>
    intro fuel acc hfuel hmc
    obtain ⟨fuel, rfl⟩ : ∃ f, fuel = f + 1 := ⟨fuel - 1, by simp at hfuel; omega⟩
    have hfuel1 : rest.length ≤ fuel := by simpa using hfuel
    have hne : ¬ acc.kept.length = (acc.kept ++ lkf0 :: rest).length := by simp
    simp only [pass_loop, if_neg hne, pass_body, pass_fold]
    rw [List.getElem?_append_right (le_refl _)]
    simp only [Nat.sub_self, List.getElem?_cons_zero]
    cases hass : assign_measurement m p pos_covs lkf0 acc.meas_used with
    | error e => simp [Except.map]
    | ok r =>
      obtain ⟨lkf, mu⟩ := r
      simp only
      have hset : (acc.kept ++ lkf0 :: rest).set acc.kept.length lkf = acc.kept ++ lkf :: rest := by
        simp
      rw [hset]
      by_cases hprune : calc_LKF_uncertainty m lkf > p.m_max_lkf_uncertainty
      · simp only [if_pos hprune]
        have herase : (acc.kept ++ lkf :: rest).eraseIdx acc.kept.length = acc.kept ++ rest := by
          simp [List.eraseIdx_append_of_length_le]
        rw [herase, it_step_erase _ _ (by simp)]
        have hmap : (acc.most_certain_lkf.map fun q => if acc.kept.length < q then q - 1 else q)
            = acc.most_certain_lkf := by
          cases hq : acc.most_certain_lkf with
          | none => rfl
          | some q =>
            have := hmc q hq
            simp only [Option.map_some', Option.some.injEq]
            rw [if_neg (by omega)]
        rw [hmap]
        exact ih fuel { acc with meas_used := mu } hfuel1 hmc
      · simp only [if_neg hprune]
        rw [it_step_keep _ _ (by simp)]
        have happ : acc.kept ++ lkf :: rest = (acc.kept ++ [lkf]) ++ rest := by simp
        have hlen : acc.kept.length + 1 = (acc.kept ++ [lkf]).length := by simp
        by_cases hsel : calc_LKF_uncertainty m lkf < acc.min_uncertainty
        · simp only [if_pos hsel]
          rw [happ, hlen]
          exact ih fuel
            { kept := acc.kept ++ [lkf], meas_used := mu,
              min_uncertainty := calc_LKF_uncertainty m lkf,
              most_certain_lkf := some acc.kept.length } hfuel1
            (by intro q hq; simp at hq; simp; omega)
        · simp only [if_neg hsel]
          rw [happ, hlen]
          exact ih fuel { acc with kept := acc.kept ++ [lkf], meas_used := mu } hfuel1
            (by intro q hq; have := hmc q hq; simp; omega)

/-! ### The association block never throws for a finite gate -/

theorem find_closest_measurement_nil (m : Libm α) (lkf : Lkf α) :
    find_closest_measurement m lkf [] = (0, m.dbl_max) := by
  simp [find_closest_measurement, find_closest_loop]

theorem find_closest_measurement_lt (m : Libm α) (lkf : Lkf α)
    (pos_covs : List (pos_cov_t α)) (hne : pos_covs ≠ []) :
    (find_closest_measurement m lkf pos_covs).1 < pos_covs.length := by
  have hpos : 0 < pos_covs.length := List.length_pos.2 hne
  rcases find_closest_loop_idx m lkf pos_covs 0 (m.dbl_max, 0) with h0 | ⟨j, hj, h1, _⟩
  · simpa [find_closest_measurement, h0] using hpos
  · simpa [find_closest_measurement, h1] using hj

/-- Whenever the gate admits a correction the returned index is in range, provided there is a
measurement or the gate is at most `std::numeric_limits<double>::max()`. -/
theorem closest_in_range (m : Libm α) (p : Params α) (pos_covs : List (pos_cov_t α))
    (lkf : Lkf α) (hgate : pos_covs ≠ [] ∨ p.m_max_update_divergence ≤ m.dbl_max)
    (hdiv : (find_closest_measurement m lkf pos_covs).2 < p.m_max_update_divergence) :
    (find_closest_measurement m lkf pos_covs).1 < pos_covs.length := by
  by_cases hne : pos_covs = []
  · subst hne
    rcases hgate with h | h
    · exact absurd rfl h
    · rw [find_closest_measurement_nil] at hdiv
      exact absurd hdiv (not_lt.2 h)
  · exact find_closest_measurement_lt m lkf pos_covs hne

theorem assign_measurement_ok (m : Libm α) (p : Params α) (pos_covs : List (pos_cov_t α))
    (lkf : Lkf α) (meas_used : List ℤ) (hlen : meas_used.length = pos_covs.length)
    (hgate : pos_covs ≠ [] ∨ p.m_max_update_divergence ≤ m.dbl_max) :
    ∃ r, assign_measurement m p pos_covs lkf meas_used = .ok r
      ∧ r.2.length = pos_covs.length := by
  unfold assign_measurement
  by_cases hdiv : (find_closest_measurement m lkf pos_covs).2 < p.m_max_update_divergence
  · have hlt := closest_in_range m p pos_covs lkf hgate hdiv
    simp only [if_pos hdiv]
    rw [List.getElem?_eq_getElem hlt]
    simp only
    rw [List.getElem?_eq_getElem (by rw [hlen]; exact hlt)]
    exact ⟨_, rfl, by simp [hlen]⟩
  · simp only [if_neg hdiv]
    exact ⟨_, rfl, hlen⟩

/-- The Track left by the association block does not depend on the use counts. -/
theorem assign_measurement_fst (m : Libm α) (p : Params α) (pos_covs : List (pos_cov_t α))
    (lkf : Lkf α) (meas_used : List ℤ) (hlen : meas_used.length = pos_covs.length)
    (r : Lkf α × List ℤ) (h : assign_measurement m p pos_covs lkf meas_used = .ok r) :
    r.1 = after_association m p pos_covs lkf := by
  unfold after_association
  unfold assign_measurement at h ⊢
  by_cases hdiv : (find_closest_measurement m lkf pos_covs).2 < p.m_max_update_divergence
  · simp only [if_pos hdiv] at h ⊢
    cases hpc : pos_covs[(find_closest_measurement m lkf pos_covs).1]? with
    | none => rw [hpc] at h; simp at h
    | some c =>
      rw [hpc] at h
      simp only at h ⊢
      have hlt : (find_closest_measurement m lkf pos_covs).1 < pos_covs.length := by
        by_contra hcon
        rw [List.getElem?_eq_none (not_lt.1 hcon)] at hpc
        exact absurd hpc (by simp)
      rw [List.getElem?_eq_getElem (by rw [hlen]; exact hlt)] at h
      rw [List.getElem?_eq_getElem (by simpa using hlt)]
      simp only at h ⊢
      cases h
      rfl
  · simp only [if_neg hdiv] at h ⊢
    cases h
    rfl

theorem assign_measurement_eq (m : Libm α) (p : Params α) (pos_covs : List (pos_cov_t α))
    (lkf : Lkf α) (meas_used : List ℤ) (hlen : meas_used.length = pos_covs.length)
    (hgate : pos_covs ≠ [] ∨ p.m_max_update_divergence ≤ m.dbl_max) :
    assign_measurement m p pos_covs lkf meas_used
        = .ok (after_association m p pos_covs lkf, count_use m p pos_covs meas_used lkf)
      ∧ (count_use m p pos_covs meas_used lkf).length = pos_covs.length := by
  obtain ⟨r, hr, hrl⟩ := assign_measurement_ok m p pos_covs lkf meas_used hlen hgate
  have h1 := assign_measurement_fst m p pos_covs lkf meas_used hlen r hr
  have h2 : count_use m p pos_covs meas_used lkf = r.2 := by
    simp [count_use, hr]
  rw [h2, ← h1]
  exact ⟨hr, hrl⟩

/-! ### The pass in closed form -/

theorem pass_fold_eq (m : Libm α) (p : Params α) (pos_covs : List (pos_cov_t α))
    (hgate : pos_covs ≠ [] ∨ p.m_max_update_divergence ≤ m.dbl_max) (todo : List (Lkf α)) :
    ∀ (acc : PassAcc α), acc.meas_used.length = pos_covs.length →
      pass_fold m p pos_covs todo acc
        = .ok { kept := acc.kept ++ survivors m p pos_covs todo
                meas_used := todo.foldl (count_use m p pos_covs) acc.meas_used
                min_uncertainty := (select_loop m (survivors m p pos_covs todo) acc.kept.length
                    (acc.min_uncertainty, acc.most_certain_lkf)).1
                most_certain_lkf := (select_loop m (survivors m p pos_covs todo) acc.kept.length
                    (acc.min_uncertainty, acc.most_certain_lkf)).2 } := by
  induction todo with
  | nil => intro acc _; simp [pass_fold, survivors, select_loop]
  | cons lkf0 rest ih =>
    intro acc hlen
    obtain ⟨hass, hlen1⟩ := assign_measurement_eq m p pos_covs lkf0 acc.meas_used hlen hgate
    simp only [pass_fold, hass, List.foldl_cons]
    by_cases hprune :
        calc_LKF_uncertainty m (after_association m p pos_covs lkf0) > p.m_max_lkf_uncertainty
    · have hst : stays m p (after_association m p pos_covs lkf0) = false := by
        simp [stays, hprune]
      have hsurv : survivors m p pos_covs (lkf0 :: rest) = survivors m p pos_covs rest := by
        simp [survivors, List.filter_cons, hst]
      rw [if_pos hprune, hsurv, ih _ hlen1]
    · have hst : stays m p (after_association m p pos_covs lkf0) = true := by
        simp only [stays, decide_eq_true_eq, Bool.not_eq_true', decide_eq_false_iff_not]
        exact hprune
      have hsurv : survivors m p pos_covs (lkf0 :: rest)
          = after_association m p pos_covs lkf0 :: survivors m p pos_covs rest := by
        simp [survivors, List.filter_cons, hst]
      rw [if_neg hprune, hsurv]
      by_cases hsel :
          calc_LKF_uncertainty m (after_association m p pos_covs lkf0) < acc.min_uncertainty
      · rw [if_pos hsel, ih _ hlen1]
        simp [select_loop, hsel]
      · rw [if_neg hsel, ih _ hlen1]
        simp [select_loop, hsel]

theorem foldl_count_use_length (m : Libm α) (p : Params α) (pos_covs : List (pos_cov_t α))
    (hgate : pos_covs ≠ [] ∨ p.m_max_update_divergence ≤ m.dbl_max) (todo : List (Lkf α)) :
    ∀ (mu : List ℤ), mu.length = pos_covs.length →
      (todo.foldl (count_use m p pos_covs) mu).length = pos_covs.length := by
  induction todo with
  | nil => intro mu h; simpa using h
  | cons lkf0 rest ih =>
    intro mu h
    simp only [List.foldl_cons]
    exact ih _ (assign_measurement_eq m p pos_covs lkf0 mu h hgate).2

/-- The pass of lines 293-337 returns normally, and in closed form. -/
theorem process_lkfs_eq (m : Libm α) (p : Params α) (pos_covs : List (pos_cov_t α))
    (hgate : pos_covs ≠ [] ∨ p.m_max_update_divergence ≤ m.dbl_max) (m_lkfs : List (Lkf α))
    (meas_used : List ℤ) (hlen : meas_used.length = pos_covs.length) :
    process_lkfs m p pos_covs m_lkfs meas_used
      = .ok { m_lkfs := survivors m p pos_covs m_lkfs
              it := (survivors m p pos_covs m_lkfs).length
              meas_used := m_lkfs.foldl (count_use m p pos_covs) meas_used
              min_uncertainty :=
                (select_loop m (survivors m p pos_covs m_lkfs) 0 (m.dbl_max, none)).1
              most_certain_lkf :=
                (select_loop m (survivors m p pos_covs m_lkfs) 0 (m.dbl_max, none)).2 } := by
  unfold process_lkfs
  by_cases hemp : m_lkfs = []
  · subst hemp
    simp [survivors, select_loop]
  · have hne : (!m_lkfs.isEmpty) = true := by
      cases m_lkfs with
      | nil => exact absurd rfl hemp
      | cons a l => rfl
    simp only [hne, if_true]
    have h := pass_loop_eq_fold m p pos_covs m_lkfs m_lkfs.length
      { kept := [], meas_used := meas_used, min_uncertainty := m.dbl_max,
        most_certain_lkf := none } (le_refl _) (by intro q hq; simp at hq)
    simp only [List.nil_append, List.length_nil] at h
    rw [h, pass_fold_eq m p pos_covs hgate m_lkfs _ hlen]
    simp [Except.map, PassAcc.toState]

/-! ### The search for the most certain Track -/

theorem select_loop_spec (m : Libm α) (l : List (Lkf α)) :
    ∀ (pos : ℕ) (acc : α × Option ℕ),
      (select_loop m l pos acc = acc ∧ ∀ t ∈ l, ¬ calc_LKF_uncertainty m t < acc.1)
      ∨ ∃ j, ∃ h : j < l.length,
          (select_loop m l pos acc).2 = some (pos + j)
          ∧ (select_loop m l pos acc).1 = calc_LKF_uncertainty m l[j]
          ∧ calc_LKF_uncertainty m l[j] < acc.1
          ∧ (∀ i, ∀ hi : i < l.length, i < j →
              calc_LKF_uncertainty m l[j] < calc_LKF_uncertainty m l[i])
          ∧ ∀ i, ∀ hi : i < l.length,
              calc_LKF_uncertainty m l[j] ≤ calc_LKF_uncertainty m l[i] := by
  induction l with
  | nil => intro pos acc; left; simp [select_loop]
  | cons t rest ih =>
    intro pos acc
    obtain ⟨mn, mc⟩ := acc
    simp only [select_loop]
    by_cases hsel : calc_LKF_uncertainty m t < mn
    · simp only [if_pos hsel]
      right
      rcases ih (pos + 1) (calc_LKF_uncertainty m t, some pos) with
        ⟨h0, hall⟩ | ⟨j, hj, h1, h2, h3, h4, h5⟩
      · refine ⟨0, by simp, by rw [h0]; rfl, by rw [h0]; rfl, hsel, ?_, ?_⟩
        · intro i _ hi0; omega
        · intro i hi
          cases i with
          | zero => simp
          | succ i =>
            simp only [List.getElem_cons_succ, List.getElem_cons_zero]
            exact not_lt.1 (hall _ (List.getElem_mem _))
      · refine ⟨j + 1, by simpa using hj, by rw [h1]; congr 1; omega, by rw [h2]; simp,
          by simpa using lt_trans h3 hsel, ?_, ?_⟩
        · intro i hi hij
          cases i with
          | zero => simpa using h3
          | succ i =>
            simp only [List.getElem_cons_succ]
            exact h4 i (by simpa using hi) (by omega)
        · intro i hi
          cases i with
          | zero => simpa using le_of_lt h3
          | succ i =>
            simp only [List.getElem_cons_succ]
            exact h5 i (by simpa using hi)
    · simp only [if_neg hsel]
      rcases ih (pos + 1) (mn, mc) with ⟨h0, hall⟩ | ⟨j, hj, h1, h2, h3, h4, h5⟩
      · left
        refine ⟨h0, ?_⟩
        intro q hq
        rcases List.mem_cons.1 hq with rfl | hq
        · exact hsel
        · exact hall q hq
      · right
        refine ⟨j + 1, by simpa using hj, by rw [h1]; congr 1; omega, by rw [h2]; simp,
          by simpa using h3, ?_, ?_⟩
        · intro i hi hij
          cases i with
          | zero => simpa using lt_of_lt_of_le h3 (not_lt.1 hsel)
          | succ i =>
            simp only [List.getElem_cons_succ]
            exact h4 i (by simpa using hi) (by omega)
        · intro i hi
          cases i with
          | zero => simpa using le_of_lt (lt_of_lt_of_le h3 (not_lt.1 hsel))
          | succ i =>
            simp only [List.getElem_cons_succ]
            exact h5 i (by simpa using hi)

/-- The selected position designates one of the Tracks that remain. -/
theorem chosen_lt (m : Libm α) (p : Params α) (pos_covs : List (pos_cov_t α))
    (m_lkfs : List (Lkf α)) (q : ℕ) (h : chosen m p pos_covs m_lkfs = some q) :
    q < (survivors m p pos_covs m_lkfs).length := by
  unfold chosen at h
  rcases select_loop_spec m (survivors m p pos_covs m_lkfs) 0 (m.dbl_max, none) with
    ⟨h0, _⟩ | ⟨j, hj, h1, _⟩
  · rw [h0] at h; simp at h
  · rw [h1] at h
    simp only [zero_add, Option.some.injEq] at h
    omega

/-! ### Spawning -/

theorem create_new_lkf_append (p : Params α) (u : Uninit α) (lkfs : List (Lkf α))
    (pc : pos_cov_t α) : create_new_lkf p u lkfs pc = lkfs ++ create_new_lkf p u [] pc := by
  simp [create_new_lkf]

theorem spawn_loop_eq (p : Params α) (uninit : ℕ → Uninit α) (pos_covs : List (pos_cov_t α))
    (meas_used : List ℤ) (hlen : meas_used.length = pos_covs.length) :
    ∀ (todo it : ℕ) (lkfs : List (Lkf α)), it + todo = pos_covs.length →
      spawn_loop p uninit pos_covs meas_used todo it lkfs
        = .ok (lkfs ++ spawned p uninit meas_used (pos_covs.drop it) it) := by
  intro todo
  induction todo with
  | zero =>
    intro it lkfs h
    have : pos_covs.drop it = [] := List.drop_eq_nil_of_le (by omega)
    simp [spawn_loop, this, spawned]
  | succ todo ih =>
    intro it lkfs h
    have hit : it < pos_covs.length := by omega
    have hit2 : it < meas_used.length := by omega
    have hdrop : pos_covs.drop it = pos_covs[it] :: pos_covs.drop (it + 1) :=
      List.drop_eq_getElem_cons hit
    have hget : meas_used.getD it 0 = meas_used[it] := by
      simp [List.getD, List.getElem?_eq_getElem hit2]
    simp only [spawn_loop, List.getElem?_eq_getElem hit2, List.getElem?_eq_getElem hit]
    rw [hdrop]
    simp only [spawned, hget]
    by_cases hused : meas_used[it] < 1
    · simp only [if_pos hused]
      rw [ih (it + 1) _ (by omega), create_new_lkf_append, List.append_assoc]
    · simp only [if_neg hused]
      rw [ih (it + 1) _ (by omega)]
      simp

/-! ### One measurement cycle in closed form -/

/-- A measurement cycle whose transform lookup succeeded returns normally when there is a
measurement or the gate is finite; the Bank it leaves is the Tracks that remain after
correction and pruning followed by the spawned Tracks, and the Track it selects is the one
found by the search over the Tracks that remain. -/
theorem main_loop_eq (m : Libm α) (p : Params α) (uninit : ℕ → Uninit α) (stamp : ℕ)
    (pos_covs : List (pos_cov_t α)) (m_lkfs : List (Lkf α))
    (hgate : pos_covs ≠ [] ∨ p.m_max_update_divergence ≤ m.dbl_max) :
    main_loop m p uninit true stamp pos_covs m_lkfs
      = .ok { m_lkfs := survivors m p pos_covs m_lkfs
                ++ spawned p uninit (final_meas_used m p pos_covs m_lkfs) pos_covs 0
              most_certain_lkf := chosen m p pos_covs m_lkfs
              published := (chosen m p pos_covs m_lkfs).bind fun q =>
                ((survivors m p pos_covs m_lkfs)[q]?).map fun lkf =>
                  create_message p lkf stamp } := by
  unfold main_loop
  have hlen0 : (List.replicate pos_covs.length (0 : ℤ)).length = pos_covs.length := by simp
  have hlen1 := foldl_count_use_length m p pos_covs hgate m_lkfs _ hlen0
  simp only [Bool.not_true, Bool.false_eq_true, if_false]
  rw [process_lkfs_eq m p pos_covs hgate m_lkfs _ hlen0]
  simp only
  rw [spawn_loop_eq p uninit pos_covs _ hlen1 pos_covs.length 0 _ (by simp)]
  simp only [List.drop_zero]
  cases hch : chosen m p pos_covs m_lkfs with
  | none =>
    unfold chosen at hch
    simp [hch, final_meas_used]
  | some q =>
    have hq := chosen_lt m p pos_covs m_lkfs q hch
    unfold chosen at hch
    simp only [hch]
    rw [List.getElem?_append_left hq, List.getElem?_eq_getElem hq]
    simp [final_meas_used, List.getElem?_eq_getElem hq]

/-! ### Use counts -/

theorem count_use_getD (m : Libm α) (p : Params α) (pos_covs : List (pos_cov_t α))
    (lkf : Lkf α) (meas_used : List ℤ) (hlen : meas_used.length = pos_covs.length)
    (hgate : pos_covs ≠ [] ∨ p.m_max_update_divergence ≤ m.dbl_max) (i : ℕ) :
    (count_use m p pos_covs meas_used lkf).getD i 0
      = meas_used.getD i 0 + if corrected_from m p pos_covs i lkf then 1 else 0 := by
  unfold count_use assign_measurement corrected_from
  by_cases hdiv : (find_closest_measurement m lkf pos_covs).2 < p.m_max_update_divergence
  · have hlt := closest_in_range m p pos_covs lkf hgate hdiv
    have hlt2 : (find_closest_measurement m lkf pos_covs).1 < meas_used.length := by
      rw [hlen]; exact hlt
    simp only [if_pos hdiv, List.getElem?_eq_getElem hlt, List.getElem?_eq_getElem hlt2]
    by_cases hi : (find_closest_measurement m lkf pos_covs).1 = i
    · subst hi
      simp [hdiv, List.getD_eq_getElem?_getD, List.getElem?_set, hlt2]
    · simp [hdiv, hi, List.getD_eq_getElem?_getD, List.getElem?_set]
  · simp [hdiv]

theorem final_meas_used_getD_aux (m : Libm α) (p : Params α) (pos_covs : List (pos_cov_t α))
    (hgate : pos_covs ≠ [] ∨ p.m_max_update_divergence ≤ m.dbl_max) (i : ℕ)
    (todo : List (Lkf α)) :
    ∀ (mu : List ℤ), mu.length = pos_covs.length →
      (todo.foldl (count_use m p pos_covs) mu).getD i 0
        = mu.getD i 0 + (todo.countP (corrected_from m p pos_covs i) : ℕ) := by
  induction todo with
  | nil => intro mu _; simp
  | cons lkf0 rest ih =>
    intro mu h
    simp only [List.foldl_cons]
    rw [ih _ (assign_measurement_eq m p pos_covs lkf0 mu h hgate).2,
      count_use_getD m p pos_covs lkf0 mu h hgate i, List.countP_cons]
    by_cases hc : corrected_from m p pos_covs i lkf0 = true
    · simp [hc]; ring
    · simp [hc]

/-- The use count of a measurement at the end of the pass is the number of Tracks corrected
from it. -/
theorem final_meas_used_getD (m : Libm α) (p : Params α) (pos_covs : List (pos_cov_t α))
    (hgate : pos_covs ≠ [] ∨ p.m_max_update_divergence ≤ m.dbl_max) (m_lkfs : List (Lkf α))
    (i : ℕ) :
    (final_meas_used m p pos_covs m_lkfs).getD i 0
      = (m_lkfs.countP (corrected_from m p pos_covs i) : ℕ) := by
  unfold final_meas_used
  rw [final_meas_used_getD_aux m p pos_covs hgate i m_lkfs _ (by simp)]
  simp only [List.getD_eq_getElem?_getD, List.getElem?_replicate]
  split_ifs <;> simp

/-! ### The association block (claim C3) -/

/-- C3: the association block corrects a Track exactly when the minimum divergence returned by
`find_closest_measurement` is strictly below `max_update_divergence`; the correction then uses
the position and covariance of the measurement at the returned index (whose use count goes up
by one), and otherwise the Track and the use counts are left as they were.  The gate is a
finite `double` or there is at least one measurement. -/
theorem assign_measurement_gate (m : Libm α) (p : Params α) (pos_covs : List (pos_cov_t α))
    (lkf : Lkf α) (meas_used : List ℤ) (hlen : meas_used.length = pos_covs.length)
    (hgate : pos_covs ≠ [] ∨ p.m_max_update_divergence ≤ m.dbl_max) :
    ((find_closest_measurement m lkf pos_covs).2 < p.m_max_update_divergence →
      ∃ closest used,
        pos_covs[(find_closest_measurement m lkf pos_covs).1]? = some closest
        ∧ meas_used[(find_closest_measurement m lkf pos_covs).1]? = some used
        ∧ assign_measurement m p pos_covs lkf meas_used
            = .ok ((lkf.setMeasurement closest.position closest.covariance).doCorrection,
                meas_used.set (find_closest_measurement m lkf pos_covs).1 (used + 1)))
    ∧ (¬ (find_closest_measurement m lkf pos_covs).2 < p.m_max_update_divergence →
      assign_measurement m p pos_covs lkf meas_used = .ok (lkf, meas_used)) := by
  constructor
  · intro hdiv
    have hlt := closest_in_range m p pos_covs lkf hgate hdiv
    have hlt2 : (find_closest_measurement m lkf pos_covs).1 < meas_used.length := by
      rw [hlen]; exact hlt
    refine ⟨pos_covs[(find_closest_measurement m lkf pos_covs).1],
      meas_used[(find_closest_measurement m lkf pos_covs).1],
      List.getElem?_eq_getElem hlt, List.getElem?_eq_getElem hlt2, ?_⟩
    unfold assign_measurement
    simp only [if_pos hdiv, List.getElem?_eq_getElem hlt, List.getElem?_eq_getElem hlt2]
  · intro hdiv
    unfold assign_measurement
    simp only [if_neg hdiv]

theorem find_closest_measurement_unit (M : ℝ) (hM : 1 / 2 < M) :
    find_closest_measurement ⟨Real.sqrt, Real.log, M⟩ unit_track [unit_measurement]
      = (0, 1 / 2) := by
  have h := (kullback_leibler_divergence_standard M).1
  simp only [find_closest_measurement, find_closest_loop, unit_track, unit_measurement,
    block33_one, block31_zero, h, if_pos hM]

/-- C3 witness: the unit Track and one unit measurement at divergence one half; a gate of
one admits the correction. -/
theorem assign_measurement_gate_witness :
    assign_measurement ⟨Real.sqrt, Real.log, 2 ^ 1024⟩ (test_params 1 1 0) [unit_measurement]
        unit_track [0]
      = .ok (((unit_track : Lkf ℝ).setMeasurement 0 1).doCorrection, [1]) := by
  have hfc := find_closest_measurement_unit (2 ^ 1024) (by norm_num)
  obtain ⟨h1, _⟩ := assign_measurement_gate (⟨Real.sqrt, Real.log, 2 ^ 1024⟩ : Libm ℝ)
    (test_params 1 1 0) [unit_measurement] unit_track [0] (by simp) (Or.inl (by simp))
  obtain ⟨closest, used, hc, hu, hres⟩ := h1 (by rw [hfc]; norm_num [test_params])
  rw [hfc] at hc hu hres
  simp only [List.getElem?_cons_zero, Option.some.injEq] at hc hu
  subst hc hu
  rw [hres]
  simp [unit_measurement]

/-! ### Spawning, pruning and selection (claims C4, C5, C6) -/

theorem create_new_lkf_length (p : Params α) (u : Uninit α) (pc : pos_cov_t α) :
    (create_new_lkf p u [] pc).length = 1 := by
  simp [create_new_lkf]

theorem spawned_eq_flatMap (p : Params α) (uninit : ℕ → Uninit α) (meas_used : List ℤ)
    (l : List (pos_cov_t α)) :
    ∀ it, spawned p uninit meas_used l it
      = ((l.enumFrom it).filter fun ip => decide (meas_used.getD ip.1 0 < 1)).flatMap
          fun ip => create_new_lkf p (uninit ip.1) [] ip.2 := by
  induction l with
  | nil => intro it; simp [spawned]
  | cons pc rest ih =>
    intro it
    simp only [spawned, List.enumFrom_cons, List.filter_cons, ih (it + 1)]
    by_cases h : meas_used.getD it 0 < 1
    · rw [if_pos h, if_pos (by simpa using h), List.flatMap_cons]
    · rw [if_neg h, if_neg (by simpa using h), List.nil_append]

theorem spawned_length (p : Params α) (uninit : ℕ → Uninit α) (meas_used : List ℤ)
    (l : List (pos_cov_t α)) :
    ∀ it, (spawned p uninit meas_used l it).length
      = (List.range' it l.length).countP fun i => decide (meas_used.getD i 0 < 1) := by
  induction l with
  | nil => intro it; simp [spawned]
  | cons pc rest ih =>
    intro it
    simp only [spawned, List.length_append, ih (it + 1), List.length_cons, List.range'_succ,
      List.countP_cons]
    by_cases h : meas_used.getD it 0 < 1
    · rw [if_pos h, if_pos (by simpa using h), create_new_lkf_length]
      omega
    · rw [if_neg h, if_neg (by simpa using h)]
      simp

theorem lt_one_iff_unused (m : Libm α) (p : Params α) (pos_covs : List (pos_cov_t α))
    (hgate : pos_covs ≠ [] ∨ p.m_max_update_divergence ≤ m.dbl_max) (m_lkfs : List (Lkf α))
    (i : ℕ) :
    (final_meas_used m p pos_covs m_lkfs).getD i 0 < 1
      ↔ ∀ t ∈ m_lkfs, corrected_from m p pos_covs i t = false := by
  rw [final_meas_used_getD m p pos_covs hgate m_lkfs i]
  have : ((List.countP (corrected_from m p pos_covs i) m_lkfs : ℕ) : ℤ) < 1
      ↔ List.countP (corrected_from m p pos_covs i) m_lkfs = 0 := by omega
  rw [this, List.countP_eq_zero]
  simp

/-- C4: a measurement cycle returns normally; the use count it keeps for a measurement is the
number of Tracks corrected from it; the Bank it leaves is the Bank at the end of the pass over
the Tracks followed by one new Track (the result of `create_new_lkf`) for each measurement from
which no Track was corrected, in measurement order, and by nothing else; the number of Tracks
appended is the number of measurements whose use count is zero. -/
theorem spawn_for_unused_measurements (m : Libm α) (p : Params α) (uninit : ℕ → Uninit α)
    (stamp : ℕ) (pos_covs : List (pos_cov_t α)) (m_lkfs : List (Lkf α))
    (hgate : pos_covs ≠ [] ∨ p.m_max_update_divergence ≤ m.dbl_max) :
    ∃ s r,
      process_lkfs m p pos_covs m_lkfs (List.replicate pos_covs.length 0) = .ok s
      ∧ main_loop m p uninit true stamp pos_covs m_lkfs = .ok r
      ∧ (∀ i, s.meas_used.getD i 0 = (m_lkfs.countP (corrected_from m p pos_covs i) : ℕ))
      ∧ r.m_lkfs = s.m_lkfs ++
          ((pos_covs.enum.filter fun ip =>
              m_lkfs.all fun t => !corrected_from m p pos_covs ip.1 t).flatMap
            fun ip => create_new_lkf p (uninit ip.1) [] ip.2)
      ∧ (∀ u pc, ∃ t, create_new_lkf p u [] pc = [t])
      ∧ r.m_lkfs.length = s.m_lkfs.length
          + (List.range pos_covs.length).countP fun i => decide (s.meas_used.getD i 0 = 0) := by
  refine ⟨_, _, process_lkfs_eq m p pos_covs hgate m_lkfs _ (by simp),
    main_loop_eq m p uninit stamp pos_covs m_lkfs hgate, ?_, ?_, ?_, ?_⟩
  · intro i
    exact final_meas_used_getD m p pos_covs hgate m_lkfs i
  · simp only [List.append_cancel_left_eq]
    rw [spawned_eq_flatMap, List.enum]
    congr 1
    apply List.filter_congr
    intro ip _
    have h := lt_one_iff_unused m p pos_covs hgate m_lkfs ip.1
    by_cases hlt : (final_meas_used m p pos_covs m_lkfs).getD ip.1 0 < 1
    · have h2 := h.1 hlt
      simp only [hlt, decide_True]
      symm
      rw [List.all_eq_true]
      intro t ht
      simp [h2 t ht]
    · have h2 : ¬ ∀ t ∈ m_lkfs, corrected_from m p pos_covs ip.1 t = false :=
        fun hc => hlt (h.2 hc)
      simp only [hlt, decide_False]
      symm
      rw [Bool.eq_false_iff]
      intro hall
      rw [List.all_eq_true] at hall
      exact h2 fun t ht => by simpa using hall t ht
  · intro u pc
    exact ⟨_, rfl⟩
  · simp only [List.length_append, Nat.add_left_cancel_iff]
    rw [spawned_length, List.range_eq_range']
    congr 1
    funext i
    have h := final_meas_used_getD m p pos_covs hgate m_lkfs i
    have h2 := h
    unfold final_meas_used at h2
    rw [h, h2]
    congr 1
    apply propext
    omega

/-- C5: a measurement cycle returns normally; the Bank at the end of the pass over the Tracks
consists of the Tracks of the Bank at the start, each as the association block left it, without
those whose uncertainty then exceeds `max_lkf_uncertainty` and with the others in their
original order; the number of pre-existing Tracks goes down by the number of pruned Tracks; the
Tracks that remain are the front of the Bank the cycle leaves. -/
theorem prune_uncertain_tracks (m : Libm α) (p : Params α) (uninit : ℕ → Uninit α)
    (stamp : ℕ) (pos_covs : List (pos_cov_t α)) (m_lkfs : List (Lkf α))
    (hgate : pos_covs ≠ [] ∨ p.m_max_update_divergence ≤ m.dbl_max) :
    ∃ s r,
      process_lkfs m p pos_covs m_lkfs (List.replicate pos_covs.length 0) = .ok s
      ∧ main_loop m p uninit true stamp pos_covs m_lkfs = .ok r
      ∧ s.m_lkfs = (m_lkfs.map (after_association m p pos_covs)).filter
          (fun t => !decide (calc_LKF_uncertainty m t > p.m_max_lkf_uncertainty))
      ∧ s.m_lkfs.length
          + (m_lkfs.map (after_association m p pos_covs)).countP
              (fun t => decide (calc_LKF_uncertainty m t > p.m_max_lkf_uncertainty))
          = m_lkfs.length
      ∧ r.m_lkfs.take s.m_lkfs.length = s.m_lkfs := by
  refine ⟨_, _, process_lkfs_eq m p pos_covs hgate m_lkfs _ (by simp),
    main_loop_eq m p uninit stamp pos_covs m_lkfs hgate, rfl, ?_, ?_⟩
  · simp only [survivors]
    have h := List.length_eq_countP_add_countP (stays m p)
      (m_lkfs.map (after_association m p pos_covs))
    rw [List.length_map] at h
    rw [h, ← List.countP_eq_length_filter]
    congr 1
    apply List.countP_congr
    intro t _
    simp [stays]
  · simp

/-- C6: a measurement cycle returns normally, and when it chooses a Track, the chosen Track is
one of the Tracks remaining after correction and pruning, it is the Track the estimate is
published from, its uncertainty is at most that of every Track that remains, and every Track
that comes before it in Bank order has a strictly larger uncertainty. -/
theorem most_certain_is_first_minimum (m : Libm α) (p : Params α) (uninit : ℕ → Uninit α)
    (stamp : ℕ) (pos_covs : List (pos_cov_t α)) (m_lkfs : List (Lkf α))
    (hgate : pos_covs ≠ [] ∨ p.m_max_update_divergence ≤ m.dbl_max) :
    ∃ r, main_loop m p uninit true stamp pos_covs m_lkfs = .ok r
      ∧ ∀ q, r.most_certain_lkf = some q →
        ∃ hq : q < (survivors m p pos_covs m_lkfs).length,
          r.m_lkfs[q]? = some (survivors m p pos_covs m_lkfs)[q]
          ∧ r.published = some (create_message p (survivors m p pos_covs m_lkfs)[q] stamp)
          ∧ (∀ j, ∀ hj : j < (survivors m p pos_covs m_lkfs).length,
              calc_LKF_uncertainty m (survivors m p pos_covs m_lkfs)[q]
                ≤ calc_LKF_uncertainty m (survivors m p pos_covs m_lkfs)[j])
          ∧ (∀ j, ∀ hj : j < (survivors m p pos_covs m_lkfs).length, j < q →
              calc_LKF_uncertainty m (survivors m p pos_covs m_lkfs)[q]
                < calc_LKF_uncertainty m (survivors m p pos_covs m_lkfs)[j]) := by
  refine ⟨_, main_loop_eq m p uninit stamp pos_covs m_lkfs hgate, ?_⟩
  intro q hq
  simp only at hq
  have hlt := chosen_lt m p pos_covs m_lkfs q hq
  refine ⟨hlt, ?_, ?_, ?_⟩
  · simp only
    rw [List.getElem?_append_left hlt, List.getElem?_eq_getElem hlt]
  · simp only [hq, Option.some_bind, List.getElem?_eq_getElem hlt, Option.map_some']
  · unfold chosen at hq
    rcases select_loop_spec m (survivors m p pos_covs m_lkfs) 0 (m.dbl_max, none) with
      ⟨h0, _⟩ | ⟨j, hj, h1, _, _, h4, h5⟩
    · rw [h0] at hq; simp at hq
    · rw [h1] at hq
      simp only [zero_add, Option.some.injEq] at hq
      subst hq
      exact ⟨h5, h4⟩

theorem calc_LKF_uncertainty_unit (M : ℝ) :
    calc_LKF_uncertainty ⟨Real.sqrt, Real.log, M⟩ unit_track = 1 := by
  simp [calc_LKF_uncertainty, unit_track, block33_one]

theorem after_association_nil (m : Libm α) (p : Params α) (lkf : Lkf α)
    (h : p.m_max_update_divergence ≤ m.dbl_max) : after_association m p [] lkf = lkf := by
  simp [after_association, assign_measurement, find_closest_measurement_nil, not_lt.2 h]

theorem survivors_unit (M thr : ℝ) (hM : 1 ≤ M) (hthr : 1 ≤ thr) :
    survivors ⟨Real.sqrt, Real.log, M⟩ (test_params 1 thr 0) [] [unit_track] = [unit_track] := by
  have h1 : after_association ⟨Real.sqrt, Real.log, M⟩ (test_params 1 thr 0) [] unit_track
      = unit_track := after_association_nil _ _ _ (by simpa [test_params] using hM)
  have h2 : stays ⟨Real.sqrt, Real.log, M⟩ (test_params 1 thr 0) unit_track = true := by
    simp [stays, calc_LKF_uncertainty_unit, test_params, hthr]
  simp only [survivors, List.map_cons, List.map_nil, h1, List.filter_cons, h2, if_true,
    List.filter_nil]

/-- C4 witness: one unit measurement against an empty Bank appends one Track. -/
theorem spawn_for_unused_measurements_witness :
    ∃ r, main_loop ⟨Real.sqrt, Real.log, 2 ^ 1024⟩ (test_params 1 2 0) (fun _ => zero_uninit)
        true 0 [unit_measurement] [] = .ok r
      ∧ r.m_lkfs.length = 1 := by
  obtain ⟨s, r, hs, hr, hcount, _, _, hlen⟩ := spawn_for_unused_measurements
    (⟨Real.sqrt, Real.log, 2 ^ 1024⟩ : Libm ℝ) (test_params 1 2 0) (fun _ => zero_uninit) 0
    [unit_measurement] [] (Or.inl (by simp))
  refine ⟨r, hr, ?_⟩
  have hs0 : s.m_lkfs = [] := by
    simp only [process_lkfs, List.isEmpty_nil, Bool.not_true, Bool.false_eq_true, if_false,
      Except.ok.injEq] at hs
    rw [← hs]
  rw [hlen, hs0, show List.range [(unit_measurement : pos_cov_t ℝ)].length = [0] from rfl]
  simp only [List.countP_cons, List.countP_nil, hcount 0]
  simp

/-- C5 witness: the unit Track has uncertainty one; with threshold one half the pass removes
it. -/
theorem prune_uncertain_tracks_witness :
    ∃ s, process_lkfs ⟨Real.sqrt, Real.log, 2 ^ 1024⟩ (test_params 1 (1 / 2) 0) []
        [unit_track] [] = .ok s
      ∧ s.m_lkfs = [] := by
  obtain ⟨s, r, hs, _, hsurv, _, _⟩ := prune_uncertain_tracks
    (⟨Real.sqrt, Real.log, 2 ^ 1024⟩ : Libm ℝ) (test_params 1 (1 / 2) 0)
    (fun _ => zero_uninit) 0 [] [unit_track] (Or.inr (by norm_num [test_params]))
  refine ⟨s, hs, ?_⟩
  rw [hsurv]
  have h1 : after_association ⟨Real.sqrt, Real.log, 2 ^ 1024⟩ (test_params 1 (1 / 2) 0) []
      (unit_track : Lkf ℝ) = unit_track :=
    after_association_nil _ _ _ (by norm_num [test_params])
  simp only [List.map_cons, List.map_nil, h1, List.filter_cons, calc_LKF_uncertainty_unit]
  norm_num [test_params]

/-- C6 witness: the unit Track alone in the Bank, below the pruning threshold, is chosen and
published. -/
theorem most_certain_is_first_minimum_witness :
    ∃ r, main_loop ⟨Real.sqrt, Real.log, 2 ^ 1024⟩ (test_params 1 2 0) (fun _ => zero_uninit)
        true 0 [] [unit_track] = .ok r
      ∧ r.most_certain_lkf = some 0
      ∧ r.published = some (create_message (test_params 1 2 0) unit_track 0) := by
  obtain ⟨r, hr, h⟩ := most_certain_is_first_minimum
    (⟨Real.sqrt, Real.log, 2 ^ 1024⟩ : Libm ℝ) (test_params 1 2 0) (fun _ => zero_uninit) 0
    [] [unit_track] (Or.inr (by norm_num [test_params]))
  have hsurv := survivors_unit (2 ^ 1024) 2 (by norm_num) (by norm_num)
  have heq := main_loop_eq (⟨Real.sqrt, Real.log, 2 ^ 1024⟩ : Libm ℝ) (test_params 1 2 0)
    (fun _ => zero_uninit) 0 [] [unit_track] (Or.inr (by norm_num [test_params]))
  rw [hr] at heq
  have hch : r.most_certain_lkf = some 0 := by
    simp only [Except.ok.injEq] at heq
    rw [heq]
    simp only [chosen, hsurv, select_loop, calc_LKF_uncertainty_unit]
    norm_num
  obtain ⟨hq, _, hpub, _⟩ := h 0 hch
  refine ⟨r, hr, hch, ?_⟩
  rw [hpub]
  simp [hsurv]

/-! ### Spawned Tracks (claim C7) -/

/-- What `create_new_lkf` builds: it appends exactly one Track at the end of the Bank;
its position is the measurement's position, the upper-left 3x3 block of its covariance is the
measurement's covariance and the lower-right block is `init_vel_cov` times the identity; its
velocity, however, is whatever the uninitialised local `init_state` held, and the off-diagonal
blocks of its covariance are whatever `init_state_cov` held: the code never writes them. -/
theorem create_new_lkf_state (p : Params α) (u : Uninit α) (lkfs : List (Lkf α))
    (pc : pos_cov_t α) :
    ∃ t, create_new_lkf p u lkfs pc = lkfs ++ [t]
      ∧ (∀ i, t.x (posIdx i) = pc.position i)
      ∧ (∀ i, t.x (velIdx i) = u.init_state (velIdx i))
      ∧ (∀ i j, t.cov (posIdx i) (posIdx j) = pc.covariance i j)
      ∧ (∀ i j, t.cov (velIdx i) (velIdx j) = if i = j then p.m_init_vel_cov else 0)
      ∧ (∀ i j, t.cov (posIdx i) (velIdx j) = u.init_state_cov (posIdx i) (velIdx j))
      ∧ (∀ i j, t.cov (velIdx i) (posIdx j) = u.init_state_cov (velIdx i) (posIdx j)) := by
  refine ⟨_, rfl, ?_, ?_, ?_, ?_, ?_, ?_⟩
  · intro i
    simp [Lkf.setCovariance, Lkf.setStates, setBlock31, posIdx]
  · intro i
    simp [Lkf.setCovariance, Lkf.setStates, setBlock31, velIdx]
  · intro i j
    have hi : ¬ 3 ≤ (i : ℕ) := by omega
    simp [Lkf.setCovariance, setBlock33_33, setBlock33_00, posIdx, hi]
  · intro i j
    simp [Lkf.setCovariance, setBlock33_33, velIdx, Matrix.one_apply, Fin.ext_iff]
  · intro i j
    have hi : ¬ 3 ≤ (i : ℕ) := by omega
    simp [Lkf.setCovariance, setBlock33_33, setBlock33_00, posIdx, velIdx, hi]
  · intro i j
    have hj : ¬ 3 ≤ (j : ℕ) := by omega
    simp [Lkf.setCovariance, setBlock33_33, setBlock33_00, posIdx, velIdx, hj]

/-- C7 (the code at a failing input): when the uninitialised local `init_state` holds ones, the Track spawned
from the unit measurement has velocity (1, 1, 1), not zero. -/
theorem create_new_lkf_velocity_not_zero :
    ∃ t : Lkf ℚ, create_new_lkf (test_params 1 1 0) ⟨0, 0, fun _ => 1, 0⟩ [] unit_measurement
        = [t]
      ∧ t.x (velIdx 0) = 1 ∧ t.x (velIdx 1) = 1 ∧ t.x (velIdx 2) = 1 := by
  refine ⟨_, rfl, ?_, ?_, ?_⟩ <;>
    simp [Lkf.setCovariance, Lkf.setStates, setBlock31, velIdx]

/-! ### The Predictor (claim C8) and the uncertainty (claim C9) -/

theorem create_A_apply (dt : α) (i j : Fin 6) :
    create_A dt i j = if i = j then 1 else if i.val + 3 = j.val then dt else 0 := by
  fin_cases i <;> fin_cases j <;> rfl

theorem create_A_mulVec (dt : α) (x : lkf_x_t α) (k : Fin 6) :
    (create_A dt).mulVec x k
      = if h : k.val < 3 then x k + dt * x ⟨k.val + 3, by omega⟩ else x k := by
  simp only [Matrix.mulVec, Matrix.dotProduct, create_A_apply, Fin.sum_univ_six]
  have h3 : ((3 : Fin 6) : ℕ) = 3 := rfl
  have h4 : ((4 : Fin 6) : ℕ) = 4 := rfl
  have h5 : ((5 : Fin 6) : ℕ) = 5 := rfl
  fin_cases k <;> simp [Fin.ext_iff, h3, h4, h5]

theorem create_A_mulVec_pos (dt : α) (x : lkf_x_t α) (i : Fin 3) :
    (create_A dt).mulVec x (posIdx i) = x (posIdx i) + dt * x (velIdx i) := by
  rw [create_A_mulVec]
  fin_cases i <;> rfl

theorem create_A_mulVec_vel (dt : α) (x : lkf_x_t α) (i : Fin 3) :
    (create_A dt).mulVec x (velIdx i) = x (velIdx i) := by
  rw [create_A_mulVec]
  fin_cases i <;> rfl

/-- One Predictor tick on one Track. -/
theorem lkf_update_eq_map (dt : α) (n : ℕ) (m_lkfs : List (Lkf α)) :
    (lkf_update dt)^[n] m_lkfs
      = m_lkfs.map ((fun lkf => (lkf.setA (create_A dt)).iterateWithoutCorrection)^[n]) := by
  induction n generalizing m_lkfs with
  | zero => simp
  | succ n ih =>
    rw [Function.iterate_succ_apply, ih, Function.iterate_succ]
    simp [lkf_update, List.map_map]

theorem predict_iterate_state (dt : α) (n : ℕ) (lkf : Lkf α) (i : Fin 3) :
    (((fun lkf : Lkf α => (lkf.setA (create_A dt)).iterateWithoutCorrection)^[n] lkf).x (posIdx i)
        = lkf.x (posIdx i) + n * dt * lkf.x (velIdx i))
    ∧ ((fun lkf : Lkf α => (lkf.setA (create_A dt)).iterateWithoutCorrection)^[n] lkf).x (velIdx i)
        = lkf.x (velIdx i) := by
  induction n with
  | zero => simp
  | succ n ih =>
    rw [Function.iterate_succ_apply']
    obtain ⟨h1, h2⟩ := ih
    generalize (fun lkf : Lkf α => (lkf.setA (create_A dt)).iterateWithoutCorrection)^[n] lkf = t
      at h1 h2 ⊢
    simp only [Lkf.iterateWithoutCorrection, Lkf.setA, create_A_mulVec_pos, create_A_mulVec_vel,
      h1, h2]
    refine ⟨?_, trivial⟩
    push_cast
    ring

/-- C8: `create_A dt` is the 6x6 identity with `dt` added at the entries `(i, i + 3)`, and
after `n` Predictor ticks of `dt` each, with no correction in between, every Track of the Bank
has position `p + n·dt·v` and velocity `v`, where `[p; v]` was its state before the ticks
(whatever the process noise, zero included). -/
theorem lkf_update_iterate (dt : α) (n : ℕ) (m_lkfs : List (Lkf α)) :
    (∀ i j : Fin 6,
      create_A dt i j = if i = j then 1 else if i.val + 3 = j.val then dt else 0)
    ∧ List.Forall₂
      (fun lkf0 lkf => ∀ i : Fin 3,
        lkf.x (posIdx i) = lkf0.x (posIdx i) + n * dt * lkf0.x (velIdx i)
        ∧ lkf.x (velIdx i) = lkf0.x (velIdx i))
      m_lkfs ((lkf_update dt)^[n] m_lkfs) := by
  refine ⟨create_A_apply dt, ?_⟩
  rw [lkf_update_eq_map, List.forall₂_map_right_iff, List.forall₂_same]
  intro lkf _ i
  exact predict_iterate_state dt n lkf i

/-- C9: `calc_LKF_uncertainty` is the square root of the determinant of the upper-left 3x3
block of the Track's covariance, a function of its nine entries; replacing the state vector,
the system matrices, the measurement and every covariance entry outside that block leaves it
unchanged. -/
theorem calc_LKF_uncertainty_position_block (m : Libm α) (lkf : Lkf α) :
    calc_LKF_uncertainty m lkf
        = m.sqrt (lkf.cov 0 0 * lkf.cov 1 1 * lkf.cov 2 2 - lkf.cov 0 0 * lkf.cov 1 2 * lkf.cov 2 1
            - lkf.cov 0 1 * lkf.cov 1 0 * lkf.cov 2 2 + lkf.cov 0 1 * lkf.cov 1 2 * lkf.cov 2 0
            + lkf.cov 0 2 * lkf.cov 1 0 * lkf.cov 2 1 - lkf.cov 0 2 * lkf.cov 1 1 * lkf.cov 2 0)
    ∧ ∀ (x : lkf_x_t α) (other : Matrix (Fin 6) (Fin 6) α) (A : lkf_A_t α) (R : lkf_R_t α)
        (Q : lkf_Q_t α) (P : lkf_P_t α) (mes : lkf_z_t α),
        calc_LKF_uncertainty m ⟨x, setBlock33_00 other (block33 lkf.cov), A, R, Q, P, mes⟩
          = calc_LKF_uncertainty m lkf := by
  constructor
  · simp only [calc_LKF_uncertainty, Matrix.det_fin_three, block33, posIdx, Matrix.of_apply]
    rfl
  · intro x other A R Q P mes
    have h : block33 (setBlock33_00 other (block33 lkf.cov)) = block33 lkf.cov := by
      ext i j
      simp [block33, setBlock33_00, posIdx]
    simp only [calc_LKF_uncertainty, h]

/-! ### Uncertainty under a predict step (claim C10) -/

theorem create_A_mul_pos (dt : α) (M : Matrix (Fin 6) (Fin 6) α) (i : Fin 3) (l : Fin 6) :
    (create_A dt * M) (posIdx i) l = M (posIdx i) l + dt * M (velIdx i) l := by
  have h := create_A_mulVec_pos dt (fun k => M k l) i
  simpa [Matrix.mulVec, Matrix.dotProduct, Matrix.mul_apply] using h

theorem mul_create_A_transpose_pos (dt : α) (M : Matrix (Fin 6) (Fin 6) α) (k : Fin 6)
    (j : Fin 3) :
    (M * (create_A dt).transpose) k (posIdx j) = M k (posIdx j) + dt * M k (velIdx j) := by
  have h := create_A_mulVec_pos dt (fun l => M k l) j
  simp only [Matrix.mulVec, Matrix.dotProduct] at h
  rw [← h, Matrix.mul_apply]
  apply Finset.sum_congr rfl
  intro l _
  rw [Matrix.transpose_apply, mul_comm]

/-- The position block of the covariance after a predict step. -/
theorem block33_predict (dt : α) (M R : Matrix (Fin 6) (Fin 6) α) :
    block33 (create_A dt * M * (create_A dt).transpose + R)
      = block33 M + dt • (block33_pv M + block33_vp M) + (dt * dt) • block33_vv M
        + block33 R := by
  ext i j
  simp only [block33, block33_pv, block33_vp, block33_vv, Matrix.of_apply, Matrix.add_apply,
    Matrix.smul_apply, smul_eq_mul, mul_create_A_transpose_pos, create_A_mul_pos]
  ring

theorem block33_create_R (p : Params α) :
    block33 (create_R p) = p.m_lkf_process_noise • (1 : Matrix3d α) := by
  ext i j
  have h : (posIdx i = posIdx j) ↔ i = j := by
    simp [posIdx, Fin.ext_iff]
  simp [block33, create_R, Matrix.one_apply, h]

end Theorems

section RealTheorems

open scoped Matrix

/-! ### Positive semidefinite 3x3 matrices over the reals -/

theorem posSemidef_det_nonneg {n : Type} [Fintype n] [DecidableEq n] (M : Matrix n n ℝ)
    (hM : M.PosSemidef) : 0 ≤ M.det := by
  obtain ⟨B, rfl⟩ := Matrix.posSemidef_iff_eq_transpose_mul_self.1 hM
  rw [Matrix.det_mul, Matrix.det_conjTranspose]
  simp only [star_trivial]
  exact mul_self_nonneg _

theorem posSemidef_smul {n : Type} [Fintype n] (M : Matrix n n ℝ) (hM : M.PosSemidef)
    (c : ℝ) (hc : 0 ≤ c) : (c • M).PosSemidef := by
  refine ⟨?_, fun x => ?_⟩
  · have h := hM.1
    unfold Matrix.IsHermitian at h ⊢
    rw [Matrix.conjTranspose_smul, h]
    simp
  · rw [Matrix.smul_mulVec_assoc, Matrix.dotProduct_smul]
    exact smul_nonneg hc (hM.2 x)

theorem posSemidef_diag_nonneg (K : Matrix (Fin 3) (Fin 3) ℝ) (hK : K.PosSemidef) (i : Fin 3) :
    0 ≤ K i i := by
  have h := posSemidef_det_nonneg _ (hK.submatrix (fun _ : Fin 1 => i))
  simpa [Matrix.det_unique] using h

theorem posSemidef_minor_nonneg (K : Matrix (Fin 3) (Fin 3) ℝ) (hK : K.PosSemidef)
    (i j : Fin 3) : 0 ≤ K i i * K j j - K i j * K j i := by
  have h := posSemidef_det_nonneg _ (hK.submatrix (![i, j] : Fin 2 → Fin 3))
  simpa [Matrix.det_fin_two] using h

theorem one_le_det_one_add (K : Matrix (Fin 3) (Fin 3) ℝ) (hK : K.PosSemidef) :
    1 ≤ (1 + K).det := by
  have hd := posSemidef_det_nonneg K hK
  have h0 := posSemidef_diag_nonneg K hK 0
  have h1 := posSemidef_diag_nonneg K hK 1
  have h2 := posSemidef_diag_nonneg K hK 2
  have m01 := posSemidef_minor_nonneg K hK 0 1
  have m02 := posSemidef_minor_nonneg K hK 0 2
  have m12 := posSemidef_minor_nonneg K hK 1 2
  rw [Matrix.det_fin_three] at hd ⊢
  simp only [Matrix.add_apply, Matrix.one_apply_eq, Matrix.one_apply_ne, ne_eq,
    Fin.reduceEq, not_false_eq_true] at hd ⊢ 
  nlinarith

theorem det_le_det_add (M N : Matrix (Fin 3) (Fin 3) ℝ) (hM : M.PosSemidef)
    (hN : N.PosSemidef) : M.det ≤ (M + N).det := by
  by_cases hdet : M.det = 0
  · rw [hdet]
    exact posSemidef_det_nonneg _ (hM.add hN)
  · obtain ⟨B, rfl⟩ := Matrix.posSemidef_iff_eq_transpose_mul_self.1 hM
    have hB : B.det ≠ 0 := by
      intro h0
      apply hdet
      rw [Matrix.det_mul, h0, mul_zero]
    have hunit : IsUnit B.det := isUnit_iff_ne_zero.2 hB
    have hK : (B⁻¹ᴴ * N * B⁻¹).PosSemidef := hN.conjTranspose_mul_mul_same B⁻¹
    have hinv : B⁻¹ * B = 1 := Matrix.nonsing_inv_mul B hunit
    have hinv' : Bᴴ * B⁻¹ᴴ = 1 := by
      rw [← Matrix.conjTranspose_mul, hinv, Matrix.conjTranspose_one]
    have hfac : Bᴴ * B + N = Bᴴ * (1 + B⁻¹ᴴ * N * B⁻¹) * B := by
      rw [Matrix.mul_add, Matrix.add_mul, Matrix.mul_one]
      congr 1
      calc N = (Bᴴ * B⁻¹ᴴ) * N * (B⁻¹ * B) := by rw [hinv, hinv', Matrix.one_mul, Matrix.mul_one]
        _ = Bᴴ * (B⁻¹ᴴ * N * B⁻¹) * B := by simp only [Matrix.mul_assoc]
    rw [hfac, Matrix.det_mul, Matrix.det_mul, Matrix.det_mul]
    have h1 := one_le_det_one_add _ hK
    have h2 := posSemidef_det_nonneg _ (Matrix.posSemidef_conjTranspose_mul_self B)
    rw [Matrix.det_mul] at h2
    nlinarith

/-! ### Uncertainty under a predict step (claim C10) -/

theorem block33_posSemidef (M : Matrix (Fin 6) (Fin 6) ℝ) (hM : M.PosSemidef) :
    (block33 M).PosSemidef := hM.submatrix posIdx

theorem block33_vv_posSemidef (M : Matrix (Fin 6) (Fin 6) ℝ) (hM : M.PosSemidef) :
    (block33_vv M).PosSemidef := hM.submatrix velIdx

theorem block33_vp_eq (M : Matrix (Fin 6) (Fin 6) ℝ) (hM : M.PosSemidef) :
    block33_vp M = (block33_pv M).transpose := by
  ext i j
  have h := congrFun (congrFun hM.1 (velIdx i)) (posIdx j)
  simp only [Matrix.conjTranspose_apply, star_trivial] at h
  simp [block33_vp, block33_pv, h]

/-- C10 (amended): for a Bank of Tracks built with the process noise `R = create_R`, each with
a symmetric positive-semidefinite covariance whose symmetrised position-velocity
cross-covariance `Σpv + Σpvᵗ` is positive semidefinite (zero in particular), for `dt ≥ 0` and a
process-noise scalar `≥ 0`, one Predictor tick does not decrease the uncertainty of any
Track. -/
theorem uncertainty_predict_ge (M : ℝ) (p : Params ℝ) (dt : ℝ) (m_lkfs : List (Lkf ℝ))
    (hdt : 0 ≤ dt) (hnoise : 0 ≤ p.m_lkf_process_noise)
    (hR : ∀ lkf ∈ m_lkfs, lkf.R = create_R p)
    (hcov : ∀ lkf ∈ m_lkfs, lkf.cov.PosSemidef)
    (hcross : ∀ lkf ∈ m_lkfs,
      (block33_pv lkf.cov + (block33_pv lkf.cov).transpose).PosSemidef) :
    List.Forall₂
      (fun lkf0 lkf1 =>
        calc_LKF_uncertainty ⟨Real.sqrt, Real.log, M⟩ lkf0
          ≤ calc_LKF_uncertainty ⟨Real.sqrt, Real.log, M⟩ lkf1)
      m_lkfs (lkf_update dt m_lkfs) := by
  unfold lkf_update
  rw [List.forall₂_map_right_iff, List.forall₂_same]
  intro lkf hmem
  simp only [calc_LKF_uncertainty, Lkf.iterateWithoutCorrection, Lkf.setA]
  apply Real.sqrt_le_sqrt
  rw [block33_predict, hR lkf hmem, block33_create_R, block33_vp_eq _ (hcov lkf hmem),
    add_assoc, add_assoc]
  apply det_le_det_add _ _ (block33_posSemidef _ (hcov lkf hmem))
  refine ((posSemidef_smul _ (hcross lkf hmem) dt hdt).add
    ((posSemidef_smul _ (block33_vv_posSemidef _ (hcov lkf hmem)) (dt * dt)
      (mul_nonneg hdt hdt)).add
        (posSemidef_smul _ Matrix.PosSemidef.one _ hnoise)))

theorem block33_pv_one : block33_pv (1 : Matrix (Fin 6) (Fin 6) ℝ) = 0 := by
  ext i j
  have h : posIdx i ≠ velIdx j := by
    intro h
    have := congrArg Fin.val h
    simp [posIdx, velIdx] at this
    omega
  simp [block33_pv, Matrix.one_apply, h]

/-- C10 witness: the unit Track, one tick of one second, no process noise. -/
theorem uncertainty_predict_ge_witness :
    calc_LKF_uncertainty ⟨Real.sqrt, Real.log, 2 ^ 1024⟩ (unit_track : Lkf ℝ)
      ≤ calc_LKF_uncertainty ⟨Real.sqrt, Real.log, 2 ^ 1024⟩
          ((unit_track : Lkf ℝ).setA (create_A 1)).iterateWithoutCorrection := by
  have h := uncertainty_predict_ge (2 ^ 1024) (test_params 1 2 0) 1 [unit_track] (by norm_num)
    (by simp [test_params])
    (by intro lkf h; rw [List.mem_singleton.1 h]; simp [unit_track, create_R, test_params])
    (by intro lkf h; rw [List.mem_singleton.1 h]; exact Matrix.PosSemidef.one)
    (by
      intro lkf h
      rw [List.mem_singleton.1 h]
      simp only [unit_track, block33_pv_one, Matrix.transpose_zero, add_zero]
      exact Matrix.PosSemidef.zero)
  simpa [lkf_update] using h

theorem anticorrelated_cov_apply (i j : Fin 6) :
    (anticorrelated_cov : Matrix (Fin 6) (Fin 6) ℝ) i j
      = if i = j then 1 else if i.val + 3 = j.val ∨ j.val + 3 = i.val then -1 else 0 := rfl

theorem anticorrelated_cov_posSemidef :
    (anticorrelated_cov : Matrix (Fin 6) (Fin 6) ℝ).PosSemidef := by
  refine ⟨?_, fun x => ?_⟩
  · ext i j
    simp only [Matrix.conjTranspose_apply, star_trivial, anticorrelated_cov_apply]
    by_cases h : i = j
    · simp [h]
    · have h' : ¬ j = i := fun e => h e.symm
      simp only [h, h', if_false, or_comm]
  · have h3 : ((3 : Fin 6) : ℕ) = 3 := rfl
    have h4 : ((4 : Fin 6) : ℕ) = 4 := rfl
    have h5 : ((5 : Fin 6) : ℕ) = 5 := rfl
    simp only [Matrix.mulVec, Matrix.dotProduct, Fin.sum_univ_six, anticorrelated_cov_apply,
      star_trivial, Pi.star_apply]
    simp [Fin.ext_iff, h3, h4, h5]
    nlinarith [sq_nonneg (x 0 - x 3), sq_nonneg (x 1 - x 4), sq_nonneg (x 2 - x 5)]

theorem block33_anticorrelated :
    block33 (anticorrelated_cov : Matrix (Fin 6) (Fin 6) ℝ) = 1 := by
  ext i j
  fin_cases i <;> fin_cases j <;>
    simp [block33, posIdx, anticorrelated_cov_apply, Fin.ext_iff, Matrix.one_apply]

theorem block33_pv_anticorrelated :
    block33_pv (anticorrelated_cov : Matrix (Fin 6) (Fin 6) ℝ) = -1 := by
  ext i j
  fin_cases i <;> fin_cases j <;>
    simp [block33_pv, posIdx, velIdx, anticorrelated_cov_apply, Fin.ext_iff, Matrix.one_apply]

theorem block33_vp_anticorrelated :
    block33_vp (anticorrelated_cov : Matrix (Fin 6) (Fin 6) ℝ) = -1 := by
  ext i j
  fin_cases i <;> fin_cases j <;>
    simp [block33_vp, posIdx, velIdx, anticorrelated_cov_apply, Fin.ext_iff, Matrix.one_apply]

theorem block33_vv_anticorrelated :
    block33_vv (anticorrelated_cov : Matrix (Fin 6) (Fin 6) ℝ) = 1 := by
  ext i j
  fin_cases i <;> fin_cases j <;>
    simp [block33_vv, velIdx, anticorrelated_cov_apply, Fin.ext_iff, Matrix.one_apply]

/-- C10 (counterexample): the Track with covariance `[[I, -I], [-I, I]]`, which is symmetric
positive semidefinite, has uncertainty 1; after one Predictor tick with `dt = 1` and process
noise 0 its uncertainty is 0. -/
theorem uncertainty_predict_decreases :
    (anticorrelated_track : Lkf ℝ).cov.PosSemidef
    ∧ (anticorrelated_track : Lkf ℝ).R = create_R (test_params 1 2 0)
    ∧ (0 : ℝ) ≤ 1 ∧ (0 : ℝ) ≤ (test_params (1 : ℝ) 2 0).m_lkf_process_noise
    ∧ calc_LKF_uncertainty ⟨Real.sqrt, Real.log, 2 ^ 1024⟩ (anticorrelated_track : Lkf ℝ) = 1
    ∧ (lkf_update 1 [(anticorrelated_track : Lkf ℝ)]).map
        (calc_LKF_uncertainty ⟨Real.sqrt, Real.log, 2 ^ 1024⟩) = [0]
    ∧ ¬ List.Forall₂
        (fun lkf0 lkf1 =>
          calc_LKF_uncertainty ⟨Real.sqrt, Real.log, 2 ^ 1024⟩ lkf0
            ≤ calc_LKF_uncertainty ⟨Real.sqrt, Real.log, 2 ^ 1024⟩ lkf1)
        [(anticorrelated_track : Lkf ℝ)] (lkf_update 1 [anticorrelated_track]) := by
  have hbefore : calc_LKF_uncertainty ⟨Real.sqrt, Real.log, 2 ^ 1024⟩
      (anticorrelated_track : Lkf ℝ) = 1 := by
    simp [calc_LKF_uncertainty, anticorrelated_track, block33_anticorrelated]
  have hafter : calc_LKF_uncertainty ⟨Real.sqrt, Real.log, 2 ^ 1024⟩
      (((anticorrelated_track : Lkf ℝ).setA (create_A 1)).iterateWithoutCorrection) = 0 := by
    simp only [calc_LKF_uncertainty, Lkf.iterateWithoutCorrection, Lkf.setA,
      anticorrelated_track, block33_predict, block33_anticorrelated, block33_pv_anticorrelated,
      block33_vp_anticorrelated, block33_vv_anticorrelated]
    have hz : (1 : Matrix3d ℝ) + (1 : ℝ) • ((-1 : Matrix3d ℝ) + -1) + ((1 : ℝ) * 1) • 1
        + block33 (0 : Matrix (Fin 6) (Fin 6) ℝ) = 0 := by
      ext i j
      simp [block33]
    rw [hz]
    simp
  refine ⟨anticorrelated_cov_posSemidef, ?_, by norm_num, by simp [test_params], hbefore, ?_, ?_⟩
  · simp [anticorrelated_track, create_R, test_params]
  · simp only [lkf_update, List.map_cons, List.map_nil, hafter]
  · simp only [lkf_update, List.map_cons, List.map_nil, List.forall₂_cons, hbefore, hafter]
    norm_num

end RealTheorems

section Lifecycle

variable {α : Type} [LinearOrderedField α]

open scoped Matrix

/-! ### The covariance under a predict step (claim C11) -/

theorem create_A_transpose_real (dt : ℝ) : (create_A dt)ᴴ = (create_A dt).transpose := by
  ext i j
  simp [Matrix.conjTranspose_apply]

/-- C11: when every Track of the Bank carries the process noise `R = create_R` with a scalar
`≥ 0` and a symmetric positive-semidefinite covariance, then after a Predictor tick (any `dt`)
every Track's covariance `create_A(dt)·Σ·create_A(dt)ᵗ + R` is again symmetric positive
semidefinite. -/
theorem predict_covariance_posSemidef (p : Params ℝ) (dt : ℝ) (m_lkfs : List (Lkf ℝ))
    (hnoise : 0 ≤ p.m_lkf_process_noise)
    (hR : ∀ lkf ∈ m_lkfs, lkf.R = create_R p)
    (hcov : ∀ lkf ∈ m_lkfs, lkf.cov.PosSemidef) :
    List.Forall₂
      (fun lkf0 lkf1 =>
        lkf1.cov = create_A dt * lkf0.cov * (create_A dt).transpose
            + p.m_lkf_process_noise • (1 : Matrix (Fin 6) (Fin 6) ℝ)
        ∧ lkf1.cov.PosSemidef ∧ lkf1.cov.transpose = lkf1.cov)
      m_lkfs (lkf_update dt m_lkfs) := by
  unfold lkf_update
  rw [List.forall₂_map_right_iff, List.forall₂_same]
  intro lkf hmem
  have hpsd : (create_A dt * lkf.cov * (create_A dt).transpose
      + p.m_lkf_process_noise • (1 : Matrix (Fin 6) (Fin 6) ℝ)).PosSemidef := by
    have h1 := (hcov lkf hmem).mul_mul_conjTranspose_same (create_A dt)
    rw [create_A_transpose_real] at h1
    exact h1.add (posSemidef_smul _ Matrix.PosSemidef.one _ hnoise)
  have hcov1 : ((lkf.setA (create_A dt)).iterateWithoutCorrection).cov
      = create_A dt * lkf.cov * (create_A dt).transpose
        + p.m_lkf_process_noise • (1 : Matrix (Fin 6) (Fin 6) ℝ) := by
    simp only [Lkf.iterateWithoutCorrection, Lkf.setA, hR lkf hmem, create_R]
  rw [hcov1]
  refine ⟨rfl, hpsd, ?_⟩
  have h := hpsd.1
  unfold Matrix.IsHermitian at h
  rw [← Matrix.conjTranspose_eq_transpose_of_trivial]
  exact h

/-- C11 witness: the unit Track, one tick of one second, no process noise. -/
theorem predict_covariance_posSemidef_witness :
    (((unit_track : Lkf ℝ).setA (create_A 1)).iterateWithoutCorrection).cov.PosSemidef := by
  have h := predict_covariance_posSemidef (test_params 1 2 0) 1 [unit_track]
    (by simp [test_params])
    (by intro lkf h; rw [List.mem_singleton.1 h]; simp [unit_track, create_R, test_params])
    (by intro lkf h; rw [List.mem_singleton.1 h]; exact Matrix.PosSemidef.one)
  simp only [lkf_update, List.map_cons, List.map_nil, List.forall₂_cons] at h
  exact h.1.2.1

/-! ### The covariance under a correction (claim C12) -/

theorem inverse_eq_inv (M : Matrix3d ℝ) : inverse M = M⁻¹ := by
  simp [inverse, Matrix.inv_def, Ring.inverse_eq_inv']

theorem create_P_apply (i : Fin 3) (k : Fin 6) :
    (create_P : lkf_P_t α) i k = if posIdx i = k then 1 else 0 := by
  fin_cases i <;> fin_cases k <;> rfl

theorem create_P_mul (M : Matrix (Fin 6) (Fin 6) α) (i : Fin 3) (l : Fin 6) :
    ((create_P : lkf_P_t α) * M) i l = M (posIdx i) l := by
  simp [Matrix.mul_apply, create_P_apply]

theorem mul_create_P_transpose {n : Type} (N : Matrix n (Fin 6) α) (k : n) (j : Fin 3) :
    (N * (create_P : lkf_P_t α).transpose) k j = N k (posIdx j) := by
  simp [Matrix.mul_apply, create_P_apply]

/-- The measurement projection extracts the position block: `P·M·Pᵗ = M.block<3,3>(0,0)`. -/
theorem create_P_mul_mul_transpose (M : Matrix (Fin 6) (Fin 6) α) :
    (create_P : lkf_P_t α) * M * (create_P : lkf_P_t α).transpose = block33 M := by
  ext i j
  rw [mul_create_P_transpose, create_P_mul]
  rfl

/-- The position block of the covariance after a correction with measurement noise `Q`. -/
theorem block33_doCorrection (lkf : Lkf α) (z : Vector3d α) (Q : Matrix3d α)
    (hP : lkf.P = create_P) :
    block33 ((lkf.setMeasurement z Q).doCorrection).cov
      = block33 lkf.cov
        - block33 lkf.cov * inverse (block33 lkf.cov + Q) * block33 lkf.cov := by
  simp only [Lkf.doCorrection, Lkf.setMeasurement, hP]
  rw [← create_P_mul_mul_transpose ((1 - _) * lkf.cov)]
  simp only [Matrix.sub_mul, Matrix.mul_sub, Matrix.one_mul, Matrix.mul_one]
  rw [create_P_mul_mul_transpose]
  congr 1
  have h : (create_P : lkf_P_t α) * (lkf.cov * (create_P : lkf_P_t α).transpose
        * inverse (block33 lkf.cov + Q) * (create_P : lkf_P_t α) * lkf.cov)
        * (create_P : lkf_P_t α).transpose
      = ((create_P : lkf_P_t α) * lkf.cov * (create_P : lkf_P_t α).transpose)
        * inverse (block33 lkf.cov + Q)
        * ((create_P : lkf_P_t α) * lkf.cov * (create_P : lkf_P_t α).transpose) := by
    simp only [Matrix.mul_assoc]
  rw [h, create_P_mul_mul_transpose]
theorem block33_posDef (M : Matrix (Fin 6) (Fin 6) ℝ) (hM : M.PosDef) :
    (block33 M).PosDef := by
  refine ⟨(block33_posSemidef M hM.posSemidef).1, fun x hx => ?_⟩
  have hy : (create_P : lkf_P_t ℝ).transpose.mulVec x ≠ 0 := by
    intro h0
    apply hx
    have h1 : ((create_P : lkf_P_t ℝ) * (create_P : lkf_P_t ℝ).transpose).mulVec x = 0 := by
      rw [← Matrix.mulVec_mulVec, h0, Matrix.mulVec_zero]
    have h2 : (create_P : lkf_P_t ℝ) * (create_P : lkf_P_t ℝ).transpose = 1 := by
      have := create_P_mul_mul_transpose (1 : Matrix (Fin 6) (Fin 6) ℝ)
      rw [Matrix.mul_one, block33_one] at this
      exact this
    rw [h2, Matrix.one_mulVec] at h1
    exact h1
  have h := hM.2 _ hy
  rw [← create_P_mul_mul_transpose]
  simp only [star_trivial] at h ⊢
  rw [← Matrix.mulVec_mulVec, ← Matrix.mulVec_mulVec, Matrix.dotProduct_mulVec,
    ← Matrix.mulVec_transpose]
  exact h

/-- C12: for a Track with the measurement projection `P = create_P` and a symmetric
positive-definite covariance, and a measurement whose covariance is symmetric positive
semidefinite (smaller than the Track's positional covariance or not), the uncertainty after
`setMeasurement` and `doCorrection` with that measurement is at most the uncertainty before. -/
theorem correction_reduces_uncertainty (M : ℝ) (lkf : Lkf ℝ) (z : Vector3d ℝ) (Q : Matrix3d ℝ)
    (hP : lkf.P = create_P) (hcov : lkf.cov.PosDef) (hQ : Q.PosSemidef) :
    calc_LKF_uncertainty ⟨Real.sqrt, Real.log, M⟩ (lkf.setMeasurement z Q).doCorrection
      ≤ calc_LKF_uncertainty ⟨Real.sqrt, Real.log, M⟩ lkf := by
  have hA := block33_posDef lkf.cov hcov
  have hApos : 0 < (block33 lkf.cov).det := hA.det_pos
  have hSge : (block33 lkf.cov).det ≤ (block33 lkf.cov + Q).det :=
    det_le_det_add _ _ hA.posSemidef hQ
  have hQle : Q.det ≤ (block33 lkf.cov + Q).det := by
    have := det_le_det_add Q (block33 lkf.cov) hQ hA.posSemidef
    rwa [add_comm] at this
  have hQnn : 0 ≤ Q.det := posSemidef_det_nonneg Q hQ
  have hSpos : 0 < (block33 lkf.cov + Q).det := lt_of_lt_of_le hApos hSge
  have hunit : IsUnit (block33 lkf.cov + Q).det := isUnit_iff_ne_zero.2 (ne_of_gt hSpos)
  have hinv : (block33 lkf.cov + Q)⁻¹ * (block33 lkf.cov + Q) = 1 :=
    Matrix.nonsing_inv_mul _ hunit
  have hfac : block33 lkf.cov - block33 lkf.cov * (block33 lkf.cov + Q)⁻¹ * block33 lkf.cov
      = block33 lkf.cov * (block33 lkf.cov + Q)⁻¹ * Q := by
    have h1 : block33 lkf.cov * (block33 lkf.cov + Q)⁻¹ * (block33 lkf.cov + Q)
        = block33 lkf.cov := by
      rw [Matrix.mul_assoc, hinv, Matrix.mul_one]
    rw [Matrix.mul_add] at h1
    rw [sub_eq_iff_eq_add]
    rw [add_comm]
    exact h1.symm
  simp only [calc_LKF_uncertainty]
  apply Real.sqrt_le_sqrt
  rw [block33_doCorrection lkf z Q hP, inverse_eq_inv, hfac, Matrix.det_mul, Matrix.det_mul,
    Matrix.det_nonsing_inv, Ring.inverse_eq_inv']
  have h2 : (block33 lkf.cov + Q).det⁻¹ * Q.det ≤ 1 := by
    rw [inv_mul_le_iff₀ hSpos]
    simpa using hQle
  calc (block33 lkf.cov).det * (block33 lkf.cov + Q).det⁻¹ * Q.det
      = (block33 lkf.cov).det * ((block33 lkf.cov + Q).det⁻¹ * Q.det) := by ring
    _ ≤ (block33 lkf.cov).det * 1 := mul_le_mul_of_nonneg_left h2 (le_of_lt hApos)
    _ = (block33 lkf.cov).det := mul_one _

/-- C12 witness: the unit Track corrected with the unit measurement. -/
theorem correction_reduces_uncertainty_witness :
    calc_LKF_uncertainty ⟨Real.sqrt, Real.log, 2 ^ 1024⟩
        ((unit_track : Lkf ℝ).setMeasurement 0 1).doCorrection
      ≤ calc_LKF_uncertainty ⟨Real.sqrt, Real.log, 2 ^ 1024⟩ (unit_track : Lkf ℝ) :=
  correction_reduces_uncertainty (2 ^ 1024) unit_track 0 1 rfl Matrix.PosDef.one
    Matrix.PosSemidef.one

/-! ### Use counts and corrections per Track (claims C13, C14) -/

theorem countP_le_bank (m : Libm α) (p : Params α) (pos_covs : List (pos_cov_t α))
    (m_lkfs : List (Lkf α)) (i : ℕ) :
    ((m_lkfs.countP (corrected_from m p pos_covs i) : ℕ) : ℤ) ≤ m_lkfs.length := by
  exact_mod_cast List.countP_le_length _

/-- C13 (amended): a measurement cycle's pass over the Bank returns normally, and afterwards the
use count of every measurement is the number of Tracks whose closest measurement it is and whose
divergence passes the gate; it is at most the number of Tracks in the Bank. -/
theorem meas_used_counts_tracks (m : Libm α) (p : Params α) (pos_covs : List (pos_cov_t α))
    (m_lkfs : List (Lkf α))
    (hgate : pos_covs ≠ [] ∨ p.m_max_update_divergence ≤ m.dbl_max) :
    ∃ s, process_lkfs m p pos_covs m_lkfs (List.replicate pos_covs.length 0) = .ok s
      ∧ ∀ i, s.meas_used.getD i 0 = (m_lkfs.countP (corrected_from m p pos_covs i) : ℕ)
          ∧ s.meas_used.getD i 0 ≤ m_lkfs.length := by
  refine ⟨_, process_lkfs_eq m p pos_covs hgate m_lkfs _ (by simp), ?_⟩
  intro i
  have h := final_meas_used_getD m p pos_covs hgate m_lkfs i
  unfold final_meas_used at h
  simp only
  rw [h]
  exact ⟨rfl, countP_le_bank m p pos_covs m_lkfs i⟩

theorem corrected_from_unit (M : ℝ) (hM : 1 / 2 < M) :
    corrected_from ⟨Real.sqrt, Real.log, M⟩ (test_params 1 2 0) [unit_measurement] 0
      unit_track = true := by
  simp only [corrected_from, find_closest_measurement_unit M hM, test_params]
  norm_num

/-- C13 witness: one unit Track and one unit measurement; the use count is one. -/
theorem meas_used_counts_tracks_witness :
    ∃ s, process_lkfs ⟨Real.sqrt, Real.log, 2 ^ 1024⟩ (test_params 1 2 0) [unit_measurement]
        [unit_track] (List.replicate [(unit_measurement : pos_cov_t ℝ)].length 0) = .ok s
      ∧ s.meas_used.getD 0 0 = 1 := by
  obtain ⟨s, hs, h⟩ := meas_used_counts_tracks (⟨Real.sqrt, Real.log, 2 ^ 1024⟩ : Libm ℝ)
    (test_params 1 2 0) [unit_measurement] [unit_track] (Or.inl (by simp))
  refine ⟨s, hs, ?_⟩
  rw [(h 0).1]
  simp [List.countP_cons, corrected_from_unit (2 ^ 1024) (by norm_num)]

/-- C13 (counterexample): two unit Tracks and one unit measurement at divergence one half, gate
one: both Tracks are corrected from the measurement and its use count is two. -/
theorem measurement_used_twice :
    ∃ s, process_lkfs ⟨Real.sqrt, Real.log, 2 ^ 1024⟩ (test_params 1 2 0) [unit_measurement]
        [unit_track, unit_track] (List.replicate [(unit_measurement : pos_cov_t ℝ)].length 0)
        = .ok s
      ∧ s.meas_used.getD 0 0 = 2 ∧ ¬ s.meas_used.getD 0 0 ≤ 1 := by
  have hs := process_lkfs_eq (⟨Real.sqrt, Real.log, 2 ^ 1024⟩ : Libm ℝ) (test_params 1 2 0)
    [unit_measurement] (Or.inl (by simp)) [unit_track, unit_track]
    (List.replicate [(unit_measurement : pos_cov_t ℝ)].length 0) (by simp)
  have h := final_meas_used_getD (⟨Real.sqrt, Real.log, 2 ^ 1024⟩ : Libm ℝ) (test_params 1 2 0)
    [unit_measurement] (Or.inl (by simp)) [unit_track, unit_track] 0
  unfold final_meas_used at h
  refine ⟨_, hs, ?_⟩
  simp only
  rw [h]
  simp [List.countP_cons, corrected_from_unit (2 ^ 1024) (by norm_num)]

theorem sum_set_succ (l : List ℤ) :
    ∀ (i : ℕ) (h : i < l.length), (l.set i (l[i] + 1)).sum = l.sum + 1 := by
  induction l with
  | nil => intro i h; simp at h
  | cons a rest ih =>
    intro i h
    cases i with
    | zero => simp; ring
    | succ i =>
      simp only [List.set_cons_succ, List.sum_cons, List.getElem_cons_succ]
      rw [ih i (by simpa using h)]
      ring

theorem count_use_sum (m : Libm α) (p : Params α) (pos_covs : List (pos_cov_t α))
    (lkf : Lkf α) (meas_used : List ℤ) (hlen : meas_used.length = pos_covs.length)
    (hgate : pos_covs ≠ [] ∨ p.m_max_update_divergence ≤ m.dbl_max) :
    (count_use m p pos_covs meas_used lkf).sum
      = meas_used.sum + if passes_gate m p pos_covs lkf then 1 else 0 := by
  unfold count_use assign_measurement passes_gate
  by_cases hdiv : (find_closest_measurement m lkf pos_covs).2 < p.m_max_update_divergence
  · have hlt := closest_in_range m p pos_covs lkf hgate hdiv
    have hlt2 : (find_closest_measurement m lkf pos_covs).1 < meas_used.length := by
      rw [hlen]; exact hlt
    simp only [if_pos hdiv, List.getElem?_eq_getElem hlt, List.getElem?_eq_getElem hlt2]
    rw [sum_set_succ meas_used _ hlt2]
    simp [hdiv]
  · simp [hdiv]

theorem foldl_count_use_sum (m : Libm α) (p : Params α) (pos_covs : List (pos_cov_t α))
    (hgate : pos_covs ≠ [] ∨ p.m_max_update_divergence ≤ m.dbl_max) (todo : List (Lkf α)) :
    ∀ (mu : List ℤ), mu.length = pos_covs.length →
      (todo.foldl (count_use m p pos_covs) mu).sum
        = mu.sum + (todo.countP (passes_gate m p pos_covs) : ℕ) := by
  induction todo with
  | nil => intro mu _; simp
  | cons lkf0 rest ih =>
    intro mu h
    simp only [List.foldl_cons]
    rw [ih _ (assign_measurement_eq m p pos_covs lkf0 mu h hgate).2,
      count_use_sum m p pos_covs lkf0 mu h hgate, List.countP_cons]
    by_cases hc : passes_gate m p pos_covs lkf0 = true
    · simp [hc]; ring
    · simp [hc]

theorem after_association_cases (m : Libm α) (p : Params α) (pos_covs : List (pos_cov_t α))
    (lkf : Lkf α) :
    (passes_gate m p pos_covs lkf = false ∧ after_association m p pos_covs lkf = lkf)
    ∨ (passes_gate m p pos_covs lkf = true ∧
        (after_association m p pos_covs lkf = lkf ∨ ∃ pc ∈ pos_covs,
          after_association m p pos_covs lkf
            = (lkf.setMeasurement pc.position pc.covariance).doCorrection)) := by
  unfold after_association assign_measurement passes_gate
  by_cases hdiv : (find_closest_measurement m lkf pos_covs).2 < p.m_max_update_divergence
  · right
    refine ⟨by simp [hdiv], ?_⟩
    simp only [if_pos hdiv]
    cases hpc : pos_covs[(find_closest_measurement m lkf pos_covs).1]? with
    | none => left; rfl
    | some c =>
      right
      have hlt : (find_closest_measurement m lkf pos_covs).1 < pos_covs.length := by
        by_contra hcon
        rw [List.getElem?_eq_none (not_lt.1 hcon)] at hpc
        exact absurd hpc (by simp)
      have hc : c = pos_covs[(find_closest_measurement m lkf pos_covs).1] := by
        rw [List.getElem?_eq_getElem hlt] at hpc
        exact (Option.some.inj hpc).symm
      refine ⟨c, by rw [hc]; exact List.getElem_mem _, ?_⟩
      simp only
      rw [List.getElem?_eq_getElem (by simpa using hlt)]
  · left
    simp [hdiv]

/-- C14: a measurement cycle's pass over the Bank returns normally; every Track of the Bank is
left by the association block either as it was (when it does not pass the gate) or with one
`setMeasurement`/`doCorrection` applied to it (when it does), the Tracks that remain being
those not pruned; and the number of corrections made in the pass, which is the sum of the use
counts, is the number of Tracks that pass the gate, at most the number of Tracks. -/
theorem one_correction_per_track (m : Libm α) (p : Params α) (pos_covs : List (pos_cov_t α))
    (m_lkfs : List (Lkf α))
    (hgate : pos_covs ≠ [] ∨ p.m_max_update_divergence ≤ m.dbl_max) :
    ∃ s, process_lkfs m p pos_covs m_lkfs (List.replicate pos_covs.length 0) = .ok s
      ∧ s.m_lkfs = (m_lkfs.map (after_association m p pos_covs)).filter (stays m p)
      ∧ (∀ lkf ∈ m_lkfs,
          (passes_gate m p pos_covs lkf = false ∧ after_association m p pos_covs lkf = lkf)
          ∨ (passes_gate m p pos_covs lkf = true ∧ ∃ pc ∈ pos_covs,
              after_association m p pos_covs lkf
                = (lkf.setMeasurement pc.position pc.covariance).doCorrection))
      ∧ s.meas_used.sum = (m_lkfs.countP (passes_gate m p pos_covs) : ℕ)
      ∧ m_lkfs.countP (passes_gate m p pos_covs) ≤ m_lkfs.length := by
  refine ⟨_, process_lkfs_eq m p pos_covs hgate m_lkfs _ (by simp), rfl, ?_, ?_,
    List.countP_le_length _⟩
  · intro lkf _
    rcases after_association_cases m p pos_covs lkf with h | ⟨hp, h | h⟩
    · exact Or.inl h
    · -- the gate is passed, so the index is in range and the lookup cannot fail
      right
      refine ⟨hp, ?_⟩
      have hdiv : (find_closest_measurement m lkf pos_covs).2 < p.m_max_update_divergence := by
        simpa [passes_gate] using hp
      have hlt := closest_in_range m p pos_covs lkf hgate hdiv
      refine ⟨pos_covs[(find_closest_measurement m lkf pos_covs).1], List.getElem_mem _, ?_⟩
      unfold after_association assign_measurement
      simp only [if_pos hdiv, List.getElem?_eq_getElem hlt]
      rw [List.getElem?_eq_getElem (by simpa using hlt)]
    · exact Or.inr ⟨hp, h⟩
  · simp only
    rw [foldl_count_use_sum m p pos_covs hgate m_lkfs _ (by simp)]
    simp

/-- C14 witness: one unit Track and one unit measurement: one correction is made. -/
theorem one_correction_per_track_witness :
    ∃ s, process_lkfs ⟨Real.sqrt, Real.log, 2 ^ 1024⟩ (test_params 1 2 0) [unit_measurement]
        [unit_track] (List.replicate [(unit_measurement : pos_cov_t ℝ)].length 0) = .ok s
      ∧ s.meas_used.sum = 1 := by
  obtain ⟨s, hs, _, _, hsum, _⟩ := one_correction_per_track
    (⟨Real.sqrt, Real.log, 2 ^ 1024⟩ : Libm ℝ) (test_params 1 2 0) [unit_measurement]
    [unit_track] (Or.inl (by simp))
  refine ⟨s, hs, ?_⟩
  rw [hsum]
  have hp : passes_gate ⟨Real.sqrt, Real.log, 2 ^ 1024⟩ (test_params 1 2 0)
      [unit_measurement] (unit_track : Lkf ℝ) = true := by
    simp only [passes_gate, find_closest_measurement_unit (2 ^ 1024) (by norm_num), test_params]
    norm_num
  simp [List.countP_cons, hp]

/-! ### Empty Bank and failed transform (claims C15, C16, C17) -/

theorem process_lkfs_nil (m : Libm α) (p : Params α) (pos_covs : List (pos_cov_t α))
    (meas_used : List ℤ) :
    process_lkfs m p pos_covs [] meas_used
      = .ok { m_lkfs := [], it := 0, meas_used := meas_used, min_uncertainty := m.dbl_max,
              most_certain_lkf := none } := by
  simp [process_lkfs]

/-- A measurement cycle against an empty Bank, in closed form. -/
theorem main_loop_empty_bank (m : Libm α) (p : Params α) (uninit : ℕ → Uninit α) (stamp : ℕ)
    (pos_covs : List (pos_cov_t α)) :
    main_loop m p uninit true stamp pos_covs []
      = .ok { m_lkfs := spawned p uninit (List.replicate pos_covs.length 0) pos_covs 0
              most_certain_lkf := none
              published := none } := by
  unfold main_loop
  simp only [Bool.not_true, Bool.false_eq_true, if_false, process_lkfs_nil]
  rw [spawn_loop_eq p uninit pos_covs _ (by simp) pos_covs.length 0 _ (by simp)]
  simp

theorem spawned_all (p : Params α) (uninit : ℕ → Uninit α) (meas_used : List ℤ)
    (hzero : ∀ i, meas_used.getD i 0 = 0) (l : List (pos_cov_t α)) :
    ∀ it, List.Forall₂
      (fun pc lkf => block31 lkf.x = pc.position ∧ block33 lkf.cov = pc.covariance)
      l (spawned p uninit meas_used l it) := by
  induction l with
  | nil => intro it; simp [spawned]
  | cons pc rest ih =>
    intro it
    simp only [spawned]
    rw [if_pos (by rw [hzero it]; norm_num)]
    obtain ⟨t, ht, hx, _, hc, _⟩ := create_new_lkf_state p (uninit it) [] pc
    rw [ht]
    simp only [List.nil_append, List.singleton_append, List.forall₂_cons]
    refine ⟨⟨?_, ?_⟩, ih (it + 1)⟩
    · ext i; exact hx i
    · ext i j; exact hc i j

/-- C15: for every list of measurements, a measurement cycle against an empty Bank returns
normally and leaves a Bank with exactly one Track per measurement, in measurement order, the
Track for a measurement having the measurement's position as its position state and the
measurement's covariance as the position block of its covariance. -/
theorem spawn_against_empty_bank (m : Libm α) (p : Params α) (uninit : ℕ → Uninit α)
    (stamp : ℕ) (pos_covs : List (pos_cov_t α)) :
    ∃ r, main_loop m p uninit true stamp pos_covs [] = .ok r
      ∧ r.m_lkfs.length = pos_covs.length
      ∧ List.Forall₂
          (fun pc lkf => block31 lkf.x = pc.position ∧ block33 lkf.cov = pc.covariance)
          pos_covs r.m_lkfs := by
  have h := spawned_all p uninit (List.replicate pos_covs.length 0)
    (by
      intro i
      simp only [List.getD_eq_getElem?_getD, List.getElem?_replicate]
      split_ifs <;> simp) pos_covs 0
  exact ⟨_, main_loop_empty_bank m p uninit stamp pos_covs, h.length_eq.symm, h⟩

/-- C16: for every list of measurements, the empty one and those that spawn Tracks included, a
measurement cycle that starts with an empty Bank returns normally, selects no Track and
publishes nothing. -/
theorem empty_bank_publishes_nothing (m : Libm α) (p : Params α) (uninit : ℕ → Uninit α)
    (stamp : ℕ) (pos_covs : List (pos_cov_t α)) :
    ∃ r, main_loop m p uninit true stamp pos_covs [] = .ok r
      ∧ r.most_certain_lkf = none ∧ r.published = none := by
  exact ⟨_, main_loop_empty_bank m p uninit stamp pos_covs, rfl, rfl⟩

/-- C17: when `get_transform_to_world` returns false the cycle returns at once: the Bank is
exactly the Bank before the cycle, no Track is selected and nothing is published. -/
theorem transform_failure_is_noop (m : Libm α) (p : Params α) (uninit : ℕ → Uninit α)
    (stamp : ℕ) (pos_covs : List (pos_cov_t α)) (m_lkfs : List (Lkf α)) :
    main_loop m p uninit false stamp pos_covs m_lkfs
      = .ok { m_lkfs := m_lkfs, most_certain_lkf := none, published := none } := by
  simp [main_loop]

/-! ### The published estimate (claim C18) -/

theorem create_message_covariance (p : Params α) (lkf : Lkf α) (stamp : ℕ) :
    (create_message p lkf stamp).covariance
      = [lkf.cov 0 0, lkf.cov 0 1, lkf.cov 0 2, 0, 0, 0,
         lkf.cov 1 0, lkf.cov 1 1, lkf.cov 1 2, 0, 0, 0,
         lkf.cov 2 0, lkf.cov 2 1, lkf.cov 2 2, 0, 0, 0,
         0, 0, 0, 666, 0, 0,
         0, 0, 0, 0, 666, 0,
         0, 0, 0, 0, 0, 666] := by
  rfl

/-- C18: the estimate built by `create_message` has the Track's first three state components
as position, the identity quaternion as orientation, the given stamp and the configured world
frame, and a row-major 6x6 covariance of 36 entries whose entry `(r, c)` is the Track's
covariance entry `(r, c)` for `r, c < 3`, the sentinel 666 at `(3,3)`, `(4,4)`, `(5,5)` and 0
everywhere else. -/
theorem create_message_fields (p : Params α) (lkf : Lkf α) (stamp : ℕ) :
    (create_message p lkf stamp).position_x = lkf.x 0
    ∧ (create_message p lkf stamp).position_y = lkf.x 1
    ∧ (create_message p lkf stamp).position_z = lkf.x 2
    ∧ (create_message p lkf stamp).orientation_w = 1
    ∧ (create_message p lkf stamp).orientation_x = 0
    ∧ (create_message p lkf stamp).orientation_y = 0
    ∧ (create_message p lkf stamp).orientation_z = 0
    ∧ (create_message p lkf stamp).stamp = stamp
    ∧ (create_message p lkf stamp).frame_id = p.m_world_frame
    ∧ (create_message p lkf stamp).covariance.length = 36
    ∧ ∀ r c : Fin 6,
        (create_message p lkf stamp).covariance[r.val * 6 + c.val]?
          = some (if r.val < 3 ∧ c.val < 3 then lkf.cov r c
                  else if r = c then 666 else 0) := by
  refine ⟨rfl, rfl, rfl, rfl, rfl, rfl, rfl, rfl, rfl, ?_, ?_⟩
  · rw [create_message_covariance]; rfl
  · intro r c
    rw [create_message_covariance]
    fin_cases r <;> fin_cases c <;> simp

/-! ### Divergence of a distribution against itself (claim C19) -/

/-- C19 (the code evaluated): for every mean and every invertible covariance, the code's
divergence of a distribution against itself is one half, not zero. -/
theorem kullback_leibler_divergence_self (M : ℝ) (mu : Vector3d ℝ) (sigma : Matrix3d ℝ)
    (hdet : sigma.det ≠ 0) :
    kullback_leibler_divergence ⟨Real.sqrt, Real.log, M⟩ mu sigma mu sigma = 1 / 2 := by
  have hinv : inverse sigma * sigma = 1 := by
    rw [inverse_eq_inv]
    exact Matrix.nonsing_inv_mul sigma (isUnit_iff_ne_zero.2 hdet)
  simp only [kullback_leibler_divergence, hinv, sub_self, Matrix.dotProduct_zero,
    Matrix.zero_dotProduct, div_self hdet, Real.log_one, Matrix.trace_one, Fintype.card_fin]
  norm_num

/-- C19 witness: mean (1, 2, 3) and covariance twice the identity. -/
theorem kullback_leibler_divergence_self_witness :
    kullback_leibler_divergence ⟨Real.sqrt, Real.log, 2 ^ 1024⟩ ![1, 2, 3]
        ((2 : ℝ) • (1 : Matrix3d ℝ)) ![1, 2, 3] ((2 : ℝ) • (1 : Matrix3d ℝ)) = 1 / 2
      ∧ (1 / 2 : ℝ) ≠ 0 := by
  refine ⟨kullback_leibler_divergence_self (2 ^ 1024) ![1, 2, 3] _ ?_, by norm_num⟩
  simp [Matrix.det_smul]

end Lifecycle

section Operation

variable {α : Type} [LinearOrderedField α]

open scoped Matrix

/-! ### Negative `dt` (claim C21) -/

/-- C21 (amended): `lkf_update` rejects no `dt`: for every `dt`, negative ones included, it
sets the transition matrix of every Track to `create_A dt` and applies it, so the position
becomes `p + dt·v`, the velocity stays `v` and the covariance becomes
`create_A(dt)·Σ·create_A(dt)ᵗ + R`. -/
theorem lkf_update_applies_any_dt (dt : α) (m_lkfs : List (Lkf α)) :
    List.Forall₂
      (fun lkf0 lkf1 =>
        lkf1.A = create_A dt
        ∧ (∀ i : Fin 3, lkf1.x (posIdx i) = lkf0.x (posIdx i) + dt * lkf0.x (velIdx i))
        ∧ (∀ i : Fin 3, lkf1.x (velIdx i) = lkf0.x (velIdx i))
        ∧ lkf1.cov = create_A dt * lkf0.cov * (create_A dt).transpose + lkf0.R)
      m_lkfs (lkf_update dt m_lkfs) := by
  unfold lkf_update
  rw [List.forall₂_map_right_iff, List.forall₂_same]
  intro lkf _
  refine ⟨rfl, ?_, ?_, rfl⟩
  · intro i
    simp only [Lkf.iterateWithoutCorrection, Lkf.setA, create_A_mulVec_pos]
  · intro i
    simp only [Lkf.iterateWithoutCorrection, Lkf.setA, create_A_mulVec_vel]

/-- C21 (counterexample): with `dt = -1` the Track at the origin that moves with unit velocity
along the first axis is moved to `-1` on that axis: the tick is applied, not rejected. -/
theorem lkf_update_negative_dt :
    (-1 : ℚ) < 0
    ∧ (moving_track : Lkf ℚ).x 0 = 0
    ∧ (lkf_update (-1 : ℚ) [moving_track]).map (fun lkf => lkf.x 0) = [-1]
    ∧ lkf_update (-1 : ℚ) [moving_track] ≠ [moving_track] := by
  have h : (lkf_update (-1 : ℚ) [moving_track]).map (fun lkf => lkf.x 0) = [-1] := by
    have h1 := create_A_mulVec_pos (-1 : ℚ) (moving_track : Lkf ℚ).x 0
    simp only [lkf_update, List.map_cons, List.map_nil, Lkf.iterateWithoutCorrection, Lkf.setA]
    have h2 : (posIdx 0 : Fin 6) = 0 := rfl
    rw [h2] at h1
    rw [h1]
    have h3 : (moving_track : Lkf ℚ).x (velIdx 0) = 1 := rfl
    have h4 : (moving_track : Lkf ℚ).x 0 = 0 := rfl
    rw [h3, h4]
    norm_num
  refine ⟨by norm_num, by simp [moving_track], h, ?_⟩
  intro hcon
  rw [hcon] at h
  simp [moving_track] at h

/-! ### The traversal of the Bank (claim C23) -/

/-- One iteration of the loop takes the state "kept, then `lkf0 :: rest` to visit" to a state
"kept', then `rest` to visit": the iterator designates the Track that followed `lkf0`,
whether `lkf0` was erased or not. -/
theorem pass_body_step (m : Libm α) (p : Params α) (pos_covs : List (pos_cov_t α))
    (hgate : pos_covs ≠ [] ∨ p.m_max_update_divergence ≤ m.dbl_max)
    (acc : PassAcc α) (lkf0 : Lkf α) (rest : List (Lkf α))
    (hlen : acc.meas_used.length = pos_covs.length)
    (hmc : ∀ q, acc.most_certain_lkf = some q → q < acc.kept.length) :
    ∃ acc1 : PassAcc α,
      pass_body m p pos_covs (acc.stateAt (lkf0 :: rest)) = .ok (acc1.stateAt rest)
      ∧ acc1.meas_used.length = pos_covs.length
      ∧ (∀ q, acc1.most_certain_lkf = some q → q < acc1.kept.length)
      ∧ (acc1.kept = acc.kept
          ∨ acc1.kept = acc.kept ++ [after_association m p pos_covs lkf0]) := by
  obtain ⟨hass, hlen1⟩ := assign_measurement_eq m p pos_covs lkf0 acc.meas_used hlen hgate
  simp only [pass_body, PassAcc.stateAt]
  rw [List.getElem?_append_right (le_refl _)]
  simp only [Nat.sub_self, List.getElem?_cons_zero, hass]
  have hset : (acc.kept ++ lkf0 :: rest).set acc.kept.length
      (after_association m p pos_covs lkf0)
      = acc.kept ++ after_association m p pos_covs lkf0 :: rest := by
    simp
  rw [hset]
  by_cases hprune :
      calc_LKF_uncertainty m (after_association m p pos_covs lkf0) > p.m_max_lkf_uncertainty
  · simp only [if_pos hprune]
    have herase : (acc.kept ++ after_association m p pos_covs lkf0 :: rest).eraseIdx
        acc.kept.length = acc.kept ++ rest := by
      simp [List.eraseIdx_append_of_length_le]
    rw [herase, it_step_erase _ _ (by simp)]
    have hmap : (acc.most_certain_lkf.map fun q => if acc.kept.length < q then q - 1 else q)
        = acc.most_certain_lkf := by
      cases hq : acc.most_certain_lkf with
      | none => rfl
      | some q =>
        have := hmc q hq
        simp only [Option.map_some', Option.some.injEq]
        rw [if_neg (by omega)]
    rw [hmap]
    exact ⟨{ acc with meas_used := count_use m p pos_covs acc.meas_used lkf0 }, rfl, hlen1,
      hmc, Or.inl rfl⟩
  · simp only [if_neg hprune]
    rw [it_step_keep _ _ (by simp)]
    have happ : acc.kept ++ after_association m p pos_covs lkf0 :: rest
        = (acc.kept ++ [after_association m p pos_covs lkf0]) ++ rest := by simp
    have hl : acc.kept.length + 1
        = (acc.kept ++ [after_association m p pos_covs lkf0]).length := by simp
    by_cases hsel :
        calc_LKF_uncertainty m (after_association m p pos_covs lkf0) < acc.min_uncertainty
    · simp only [if_pos hsel]
      rw [happ, hl]
      exact ⟨{ kept := acc.kept ++ [after_association m p pos_covs lkf0],
               meas_used := count_use m p pos_covs acc.meas_used lkf0,
               min_uncertainty := calc_LKF_uncertainty m (after_association m p pos_covs lkf0),
               most_certain_lkf := some acc.kept.length }, rfl, hlen1,
        by intro q hq; simp at hq; simp; omega, Or.inr rfl⟩
    · simp only [if_neg hsel]
      rw [happ, hl]
      exact ⟨{ acc with kept := acc.kept ++ [after_association m p pos_covs lkf0],
                        meas_used := count_use m p pos_covs acc.meas_used lkf0 }, rfl, hlen1,
        by intro q hq; have := hmc q hq; simp; omega, Or.inr rfl⟩

theorem pass_visits_eq (m : Libm α) (p : Params α) (pos_covs : List (pos_cov_t α))
    (hgate : pos_covs ≠ [] ∨ p.m_max_update_divergence ≤ m.dbl_max) (todo : List (Lkf α)) :
    ∀ (fuel : ℕ) (acc : PassAcc α), todo.length ≤ fuel →
      acc.meas_used.length = pos_covs.length →
      (∀ q, acc.most_certain_lkf = some q → q < acc.kept.length) →
      pass_visits m p pos_covs fuel (acc.stateAt todo) = todo := by
  induction todo with
  | nil =>
    intro fuel acc _ _ _
    cases fuel <;> simp [pass_visits, PassAcc.stateAt]
  | cons lkf0 rest ih =>
    intro fuel acc hfuel hlen hmc
    obtain ⟨fuel, rfl⟩ : ∃ f, fuel = f + 1 := ⟨fuel - 1, by simp at hfuel; omega⟩
    obtain ⟨acc1, hbody, hlen1, hmc1, _⟩ :=
      pass_body_step m p pos_covs hgate acc lkf0 rest hlen hmc
    have hne : ¬ (acc.stateAt (lkf0 :: rest)).it = (acc.stateAt (lkf0 :: rest)).m_lkfs.length := by
      simp [PassAcc.stateAt]
    have hget : (acc.stateAt (lkf0 :: rest)).m_lkfs[(acc.stateAt (lkf0 :: rest)).it]?
        = some lkf0 := by
      simp only [PassAcc.stateAt]
      rw [List.getElem?_append_right (le_refl _)]
      simp
    rw [pass_visits, if_neg hne, hget]
    simp only [hbody]
    rw [ih fuel acc1 (by simpa using hfuel) hlen1 hmc1]

/-- C23: in the pass that interleaves pruning with the search for the most certain Track,
the Tracks dereferenced by the successive iterations of the loop are exactly the Tracks that
were in the Bank at the start of the pass, each once, in Bank order, whichever of them are
pruned (the first one included), and the loop then ends normally with the Bank holding the
Tracks that remain. -/
theorem pass_visits_every_track_once (m : Libm α) (p : Params α)
    (pos_covs : List (pos_cov_t α)) (m_lkfs : List (Lkf α))
    (hgate : pos_covs ≠ [] ∨ p.m_max_update_divergence ≤ m.dbl_max) :
    pass_visits m p pos_covs m_lkfs.length
        { m_lkfs := m_lkfs, it := 0, meas_used := List.replicate pos_covs.length 0,
          min_uncertainty := m.dbl_max, most_certain_lkf := none } = m_lkfs
    ∧ ∃ s, process_lkfs m p pos_covs m_lkfs (List.replicate pos_covs.length 0) = .ok s
        ∧ s.it = s.m_lkfs.length
        ∧ s.m_lkfs = (m_lkfs.map (after_association m p pos_covs)).filter (stays m p) := by
  constructor
  · have h := pass_visits_eq m p pos_covs hgate m_lkfs m_lkfs.length
      { kept := [], meas_used := List.replicate pos_covs.length 0,
        min_uncertainty := m.dbl_max, most_certain_lkf := none } (le_refl _) (by simp)
      (by intro q hq; simp at hq)
    simpa [PassAcc.stateAt] using h
  · exact ⟨_, process_lkfs_eq m p pos_covs hgate m_lkfs _ (by simp), rfl, rfl⟩

/-- C23 witness: two unit Tracks whose uncertainty one exceeds the threshold one half, so that
both are pruned, the first one first: both are examined. -/
theorem pass_visits_every_track_once_witness :
    pass_visits ⟨Real.sqrt, Real.log, 2 ^ 1024⟩ (test_params 1 (1 / 2) 0) [] 2
        { m_lkfs := [unit_track, unit_track], it := 0, meas_used := [],
          min_uncertainty := 2 ^ 1024, most_certain_lkf := none }
      = [(unit_track : Lkf ℝ), unit_track] :=
  (pass_visits_every_track_once (⟨Real.sqrt, Real.log, 2 ^ 1024⟩ : Libm ℝ)
    (test_params 1 (1 / 2) 0) [] [unit_track, unit_track]
    (Or.inr (by norm_num [test_params]))).1

/-! ### Spawned Tracks are not candidates (claim C25) -/

theorem survivors_mem (m : Libm α) (p : Params α) (pos_covs : List (pos_cov_t α))
    (m_lkfs : List (Lkf α)) (t : Lkf α) (h : t ∈ survivors m p pos_covs m_lkfs) :
    ∃ lkf0 ∈ m_lkfs, t = after_association m p pos_covs lkf0 := by
  unfold survivors at h
  obtain ⟨lkf0, h0, h1⟩ := List.mem_map.1 (List.mem_filter.1 h).1
  exact ⟨lkf0, h0, h1.symm⟩

/-- C25: a measurement cycle returns normally, and when it chooses a Track, the chosen position
lies before every Track appended in the cycle: it designates, in the Bank the cycle leaves, a
Track that was in the Bank when the cycle began, as the association block left it; the Tracks
instantiated from unused measurements come after it and are never chosen. -/
theorem spawned_never_chosen (m : Libm α) (p : Params α) (uninit : ℕ → Uninit α)
    (stamp : ℕ) (pos_covs : List (pos_cov_t α)) (m_lkfs : List (Lkf α))
    (hgate : pos_covs ≠ [] ∨ p.m_max_update_divergence ≤ m.dbl_max) :
    ∃ r appended,
      main_loop m p uninit true stamp pos_covs m_lkfs = .ok r
      ∧ r.m_lkfs = survivors m p pos_covs m_lkfs ++ appended
      ∧ (survivors m p pos_covs m_lkfs).length ≤ m_lkfs.length
      ∧ ∀ q, r.most_certain_lkf = some q →
          q < (survivors m p pos_covs m_lkfs).length
          ∧ ∃ lkf0 ∈ m_lkfs, r.m_lkfs[q]? = some (after_association m p pos_covs lkf0) := by
  refine ⟨_, _, main_loop_eq m p uninit stamp pos_covs m_lkfs hgate, rfl, ?_, ?_⟩
  · unfold survivors
    exact le_trans (List.length_filter_le _ _) (by simp)
  · intro q hq
    simp only at hq
    have hlt := chosen_lt m p pos_covs m_lkfs q hq
    refine ⟨hlt, ?_⟩
    obtain ⟨lkf0, h0, h1⟩ := survivors_mem m p pos_covs m_lkfs _ (List.getElem_mem hlt)
    refine ⟨lkf0, h0, ?_⟩
    simp only
    rw [List.getElem?_append_left hlt, List.getElem?_eq_getElem hlt, h1]

/-- C25 witness: one unit Track in the Bank and one measurement far from it in divergence
terms (gate zero): the Track is chosen, the Track spawned from the measurement is not. -/
theorem spawned_never_chosen_witness :
    ∃ r, main_loop ⟨Real.sqrt, Real.log, 2 ^ 1024⟩ (test_params 0 2 0) (fun _ => zero_uninit)
        true 0 [unit_measurement] [(unit_track : Lkf ℝ)] = .ok r
      ∧ r.m_lkfs.length = 2 ∧ ∀ q, r.most_certain_lkf = some q → q < 1 := by
  obtain ⟨r, appended, hr, hlist, hle, hq⟩ := spawned_never_chosen
    (⟨Real.sqrt, Real.log, 2 ^ 1024⟩ : Libm ℝ) (test_params 0 2 0) (fun _ => zero_uninit) 0
    [unit_measurement] [unit_track] (Or.inl (by simp))
  have heq := main_loop_eq (⟨Real.sqrt, Real.log, 2 ^ 1024⟩ : Libm ℝ) (test_params 0 2 0)
    (fun _ => zero_uninit) 0 [unit_measurement] [unit_track] (Or.inl (by simp))
  rw [hr] at heq
  have hfc := find_closest_measurement_unit (2 ^ 1024) (by norm_num)
  have hng : ¬ (1 / 2 : ℝ) < 0 := by norm_num
  have haft : after_association ⟨Real.sqrt, Real.log, 2 ^ 1024⟩ (test_params 0 2 0)
      [unit_measurement] (unit_track : Lkf ℝ) = unit_track := by
    simp only [after_association, assign_measurement, hfc, test_params, if_neg hng]
  have hst : stays ⟨Real.sqrt, Real.log, 2 ^ 1024⟩ (test_params 0 2 0)
      (unit_track : Lkf ℝ) = true := by
    simp [stays, calc_LKF_uncertainty_unit, test_params]
  have hsurv : survivors ⟨Real.sqrt, Real.log, 2 ^ 1024⟩ (test_params 0 2 0)
      [unit_measurement] [(unit_track : Lkf ℝ)] = [unit_track] := by
    simp only [survivors, List.map_cons, List.map_nil, haft, List.filter_cons, hst, if_true,
      List.filter_nil]
  have hcf : corrected_from ⟨Real.sqrt, Real.log, 2 ^ 1024⟩ (test_params 0 2 0)
      [unit_measurement] 0 (unit_track : Lkf ℝ) = false := by
    simp only [corrected_from, hfc, test_params]
    norm_num
  have hmu := final_meas_used_getD (⟨Real.sqrt, Real.log, 2 ^ 1024⟩ : Libm ℝ)
    (test_params 0 2 0) [unit_measurement] (Or.inl (by simp)) [unit_track] 0
  simp only [List.countP_cons, List.countP_nil, hcf] at hmu
  refine ⟨r, hr, ?_, ?_⟩
  · simp only [Except.ok.injEq] at heq
    rw [heq]
    simp only [hsurv, List.length_append, List.length_cons, List.length_nil, spawned, hmu]
    simp [create_new_lkf_length]
  · intro q hqs
    have := (hq q hqs).1
    rw [hsurv] at this
    simpa using this

/-! ### Index validity for a finite gate (claim C26) -/

theorem survivors_nil_measurements (m : Libm α) (p : Params α) (m_lkfs : List (Lkf α))
    (hfin : p.m_max_update_divergence ≤ m.dbl_max) :
    survivors m p [] m_lkfs = m_lkfs.filter (stays m p) := by
  unfold survivors
  congr 1
  have h : after_association m p [] = id := by
    funext lkf
    exact after_association_nil m p lkf hfin
  rw [h, List.map_id]

/-- C26: for a gate that is a finite `double` (at most `std::numeric_limits<double>::max()`),
whenever the divergence returned by `find_closest_measurement` passes the gate the returned
index is a valid index into the measurement list, and a measurement cycle never throws; with an
empty measurement list `find_closest_measurement` reports index 0 and the maximal divergence,
no Track is corrected and none is spawned, and the Bank the cycle leaves is the Bank at its
start without the Tracks whose uncertainty exceeds the threshold, the most certain of the rest
being selected. -/
theorem finite_gate_never_out_of_range (m : Libm α) (p : Params α) (uninit : ℕ → Uninit α)
    (stamp : ℕ) (pos_covs : List (pos_cov_t α)) (m_lkfs : List (Lkf α))
    (hfin : p.m_max_update_divergence ≤ m.dbl_max) :
    (∀ lkf : Lkf α,
      (find_closest_measurement m lkf pos_covs).2 < p.m_max_update_divergence →
        (find_closest_measurement m lkf pos_covs).1 < pos_covs.length
        ∧ (find_closest_measurement m lkf pos_covs).1
            < (List.replicate pos_covs.length (0 : ℤ)).length)
    ∧ (∃ r, main_loop m p uninit true stamp pos_covs m_lkfs = .ok r)
    ∧ (∀ lkf : Lkf α, find_closest_measurement m lkf [] = (0, m.dbl_max))
    ∧ (∀ lkf : Lkf α, ∀ meas_used : List ℤ,
        assign_measurement m p [] lkf meas_used = .ok (lkf, meas_used))
    ∧ ∃ r, main_loop m p uninit true stamp [] m_lkfs = .ok r
        ∧ r.m_lkfs = m_lkfs.filter (stays m p)
        ∧ r.most_certain_lkf
            = (select_loop m (m_lkfs.filter (stays m p)) 0 (m.dbl_max, none)).2 := by
  refine ⟨?_, ⟨_, main_loop_eq m p uninit stamp pos_covs m_lkfs (Or.inr hfin)⟩,
    find_closest_measurement_nil m, ?_, ?_⟩
  · intro lkf hdiv
    have h := closest_in_range m p pos_covs lkf (Or.inr hfin) hdiv
    exact ⟨h, by simpa using h⟩
  · intro lkf meas_used
    simp [assign_measurement, find_closest_measurement_nil, not_lt.2 hfin]
  · refine ⟨_, main_loop_eq m p uninit stamp [] m_lkfs (Or.inr hfin), ?_, ?_⟩
    · simp [survivors_nil_measurements m p m_lkfs hfin, spawned]
    · simp [chosen, survivors_nil_measurements m p m_lkfs hfin]

/-- C26 witness: gate one, no measurement, the unit Track below the pruning threshold: the
cycle returns normally and the Bank is unchanged. -/
theorem finite_gate_never_out_of_range_witness :
    ∃ r, main_loop ⟨Real.sqrt, Real.log, 2 ^ 1024⟩ (test_params 1 2 0) (fun _ => zero_uninit)
        true 0 [] [(unit_track : Lkf ℝ)] = .ok r
      ∧ r.m_lkfs = [unit_track] := by
  obtain ⟨_, _, _, _, r, hr, hl, _⟩ := finite_gate_never_out_of_range
    (⟨Real.sqrt, Real.log, 2 ^ 1024⟩ : Libm ℝ) (test_params 1 2 0) (fun _ => zero_uninit) 0
    [] [unit_track] (by norm_num [test_params])
  refine ⟨r, hr, ?_⟩
  rw [hl]
  have hst : stays ⟨Real.sqrt, Real.log, 2 ^ 1024⟩ (test_params 1 2 0)
      (unit_track : Lkf ℝ) = true := by
    simp [stays, calc_LKF_uncertainty_unit, test_params]
  simp only [List.filter_cons, hst, if_true, List.filter_nil]

/-! ### The covariance of a detection (claim C24) -/

/-- What `calc_position_covariance` returns: on every input, the covariance as prepared, the
diagonal matrix with `xy_covariance_coeff` twice and the larger of
`p_z·sqrt(p_z)·z_covariance_coeff` and `0.33·z_covariance_coeff`; the rotation plays no part in
the result. -/
theorem calc_position_covariance_eq_prepared (m : Libm α) (p : Params α)
    (position_sf : Vector3d α) :
    calc_position_covariance m p position_sf
      = Matrix.diagonal ![p.m_xy_covariance_coeff, p.m_xy_covariance_coeff,
          max (position_sf 2 * m.sqrt (position_sf 2) * p.m_z_covariance_coeff)
            (0.33 * p.m_z_covariance_coeff)] := by
  simp only [calc_position_covariance, prepared_covariance]
  have hmax : (if position_sf 2 * m.sqrt (position_sf 2) * p.m_z_covariance_coeff
        < 0.33 * p.m_z_covariance_coeff then 0.33 * p.m_z_covariance_coeff
      else position_sf 2 * m.sqrt (position_sf 2) * p.m_z_covariance_coeff)
      = max (position_sf 2 * m.sqrt (position_sf 2) * p.m_z_covariance_coeff)
          (0.33 * p.m_z_covariance_coeff) := by
    split_ifs with h
    · exact (max_eq_right (le_of_lt h)).symm
    · exact (max_eq_left (not_lt.1 h)).symm
  rw [hmax]
  ext i j
  fin_cases i <;> fin_cases j <;> simp [Matrix.diagonal] <;> rfl

theorem direction_rotation_x (M : ℝ) :
    direction_rotation ⟨Real.sqrt, Real.log, M⟩ ![1, 0, 0]
      = !![0, 0, 1; 0, 1, 0; -1, 0, 0] := by
  have hb : normalized ⟨Real.sqrt, Real.log, M⟩ (![1, 0, 0] : Vector3d ℝ) = ![1, 0, 0] := by
    simp only [normalized]
    norm_num
  have hv : cross (![0, 0, 1] : Vector3d ℝ) ![1, 0, 0] = ![0, 1, 0] := by
    simp [cross]
  have hs : norm3 ⟨Real.sqrt, Real.log, M⟩ (![0, 1, 0] : Vector3d ℝ) = 1 := by
    simp [norm3]
  have hc : Matrix.dotProduct (![0, 0, 1] : Vector3d ℝ) ![1, 0, 0] = 0 := by
    simp [Matrix.dotProduct, Fin.sum_univ_three]
  simp only [direction_rotation, hb, hv, hs, hc]
  norm_num
  ext i j
  fin_cases i <;> fin_cases j <;>
    simp [Matrix.mul_apply, Fin.sum_univ_three, Matrix.one_apply] <;> rfl
/-- C24 (the code at a failing input): for the detection position (1, 0, 0), with
`xy_covariance_coeff = 1` and `z_covariance_coeff = 1`, the rotation built in the function takes
the axis (0, 0, 1) to (1, 0, 0) and the rotated covariance is diag(0.33, 1, 1), but
`calc_position_covariance` returns the unrotated diag(1, 1, 0.33). -/
theorem calc_position_covariance_not_rotated :
    (direction_rotation ⟨Real.sqrt, Real.log, 2 ^ 1024⟩ ![1, 0, 0]).mulVec ![0, 0, 1]
        = ![1, 0, 0]
    ∧ calc_position_covariance_spec ⟨Real.sqrt, Real.log, 2 ^ 1024⟩ (test_params 1 2 0)
        ![1, 0, 0] = Matrix.diagonal ![0.33, 1, 1]
    ∧ calc_position_covariance ⟨Real.sqrt, Real.log, 2 ^ 1024⟩ (test_params 1 2 0)
        ![1, 0, 0] = Matrix.diagonal ![1, 1, 0.33]
    ∧ calc_position_covariance ⟨Real.sqrt, Real.log, 2 ^ 1024⟩ (test_params 1 2 0)
        ![1, 0, 0] ≠ calc_position_covariance_spec ⟨Real.sqrt, Real.log, 2 ^ 1024⟩
          (test_params 1 2 0) ![1, 0, 0] := by
  have hprep : prepared_covariance ⟨Real.sqrt, Real.log, 2 ^ 1024⟩ (test_params 1 2 0)
      (![1, 0, 0] : Vector3d ℝ) = Matrix.diagonal ![1, 1, 0.33] := by
    simp only [prepared_covariance, test_params]
    norm_num
    ext i j
    fin_cases i <;> fin_cases j <;> simp [Matrix.diagonal] <;> rfl
  have hcode : calc_position_covariance ⟨Real.sqrt, Real.log, 2 ^ 1024⟩ (test_params 1 2 0)
      (![1, 0, 0] : Vector3d ℝ) = Matrix.diagonal ![1, 1, 0.33] := hprep
  have hspec : calc_position_covariance_spec ⟨Real.sqrt, Real.log, 2 ^ 1024⟩
      (test_params 1 2 0) (![1, 0, 0] : Vector3d ℝ) = Matrix.diagonal ![0.33, 1, 1] := by
    simp only [calc_position_covariance_spec, rotate_covariance, hprep, direction_rotation_x]
    ext i j
    simp only [Matrix.mul_apply, Fin.sum_univ_three, Matrix.transpose_apply,
      Matrix.diagonal_apply]
    fin_cases i <;> fin_cases j <;> simp <;> first | rfl | (left; rfl) | (right; rfl)
  refine ⟨?_, hspec, hcode, ?_⟩
  · rw [direction_rotation_x]
    ext i
    fin_cases i <;> simp [Matrix.mulVec, Matrix.dotProduct, Fin.sum_univ_three]
  · rw [hcode, hspec]
    intro h
    have h00 := congrFun (congrFun h 0) 0
    simp [Matrix.diagonal] at h00
    norm_num at h00

/-! ### Growth of the uncertainty under repeated predict steps (claim C22) -/

theorem create_A_transpose_mulVec_pos (dt : ℝ) (y : Fin 6 → ℝ) (i : Fin 3) :
    (create_A dt).transpose.mulVec y (posIdx i) = y (posIdx i) := by
  have h3 : ((3 : Fin 6) : ℕ) = 3 := rfl
  have h4 : ((4 : Fin 6) : ℕ) = 4 := rfl
  have h5 : ((5 : Fin 6) : ℕ) = 5 := rfl
  simp only [Matrix.mulVec, Matrix.dotProduct, Matrix.transpose_apply, create_A_apply,
    Fin.sum_univ_six]
  fin_cases i <;> simp [posIdx, Fin.ext_iff, h3, h4, h5] <;> rfl

theorem create_P_transpose_mulVec_pos (x : Fin 3 → ℝ) (i : Fin 3) :
    (create_P : lkf_P_t ℝ).transpose.mulVec x (posIdx i) = x i := by
  simp only [Matrix.mulVec, Matrix.dotProduct, Matrix.transpose_apply, create_P_apply]
  have h : ∀ j : Fin 3, (posIdx j = posIdx i) ↔ j = i := by
    intro j; simp [posIdx, Fin.ext_iff]
  simp [h]

theorem sum_pos_sq_le (y : Fin 6 → ℝ) :
    ∑ i : Fin 3, y (posIdx i) ^ 2 ≤ Matrix.dotProduct y y := by
  have e0 : posIdx (0 : Fin 3) = 0 := rfl
  have e1 : posIdx (1 : Fin 3) = 1 := rfl
  have e2 : posIdx (2 : Fin 3) = 2 := rfl
  simp only [Matrix.dotProduct, Fin.sum_univ_six, Fin.sum_univ_three, e0, e1, e2]
  nlinarith [sq_nonneg (y 3), sq_nonneg (y 4), sq_nonneg (y 5)]

/-- After `n` predict steps with process noise `r·I`, the covariance is positive semidefinite
and its quadratic form is at least `n·r` times the squared length of the position part. -/
theorem predict_iterate_covariance (p : Params ℝ) (dt : ℝ) (lkf : Lkf ℝ)
    (hR : lkf.R = create_R p) (hnoise : 0 ≤ p.m_lkf_process_noise)
    (hcov : lkf.cov.PosSemidef) (n : ℕ) :
    ((predict_track dt)^[n] lkf).R = create_R p
    ∧ ((predict_track dt)^[n] lkf).cov.PosSemidef
    ∧ ∀ y : Fin 6 → ℝ,
        n * p.m_lkf_process_noise * ∑ i : Fin 3, y (posIdx i) ^ 2
          ≤ Matrix.dotProduct y (((predict_track dt)^[n] lkf).cov.mulVec y) := by
  induction n with
  | zero =>
    refine ⟨hR, hcov, fun y => ?_⟩
    have h := hcov.2 y
    simp only [star_trivial] at h
    simpa using h
  | succ n ih =>
    rw [Function.iterate_succ_apply']
    obtain ⟨h1, h2, h3⟩ := ih
    generalize (predict_track dt)^[n] lkf = t at h1 h2 h3 ⊢
    have hcov1 : (predict_track dt t).cov
        = create_A dt * t.cov * (create_A dt).transpose
          + p.m_lkf_process_noise • (1 : Matrix (Fin 6) (Fin 6) ℝ) := by
      simp only [predict_track, Lkf.iterateWithoutCorrection, Lkf.setA, h1, create_R]
    refine ⟨h1, ?_, fun y => ?_⟩
    · rw [hcov1]
      have hA := h2.mul_mul_conjTranspose_same (create_A dt)
      rw [create_A_transpose_real] at hA
      exact hA.add (posSemidef_smul _ Matrix.PosSemidef.one _ hnoise)
    · rw [hcov1, Matrix.add_mulVec, Matrix.dotProduct_add, Matrix.smul_mulVec_assoc,
        Matrix.one_mulVec, Matrix.dotProduct_smul, smul_eq_mul,
        ← Matrix.mulVec_mulVec, ← Matrix.mulVec_mulVec, Matrix.dotProduct_mulVec,
        ← Matrix.mulVec_transpose]
      have h4 := h3 ((create_A dt).transpose.mulVec y)
      simp only [create_A_transpose_mulVec_pos] at h4
      have h5 := sum_pos_sq_le y
      have h6 : 0 ≤ ∑ i : Fin 3, y (posIdx i) ^ 2 :=
        Finset.sum_nonneg fun i _ => sq_nonneg _
      push_cast
      nlinarith [mul_le_mul_of_nonneg_left h5 hnoise]

/-- The position block dominates `c·I` when the quadratic form of the covariance dominates
`c` times the squared length of the position part; its determinant is then at least `c³`. -/
theorem det_block33_ge (S : Matrix (Fin 6) (Fin 6) ℝ) (hS : S.PosSemidef) (c : ℝ) (hc : 0 ≤ c)
    (h : ∀ y : Fin 6 → ℝ,
      c * ∑ i : Fin 3, y (posIdx i) ^ 2 ≤ Matrix.dotProduct y (S.mulVec y)) :
    c ^ 3 ≤ (block33 S).det := by
  have hN : (block33 S - c • (1 : Matrix3d ℝ)).PosSemidef := by
    refine ⟨?_, fun x => ?_⟩
    · have h1 := (block33_posSemidef S hS).1
      have h2 := (posSemidef_smul (1 : Matrix3d ℝ) Matrix.PosSemidef.one c hc).1
      exact h1.sub h2
    · have h1 := h ((create_P : lkf_P_t ℝ).transpose.mulVec x)
      simp only [create_P_transpose_mulVec_pos] at h1
      have e : Matrix.dotProduct x ((block33 S).mulVec x)
          = Matrix.dotProduct ((create_P : lkf_P_t ℝ).transpose.mulVec x)
              (S.mulVec ((create_P : lkf_P_t ℝ).transpose.mulVec x)) := by
        rw [← create_P_mul_mul_transpose, ← Matrix.mulVec_mulVec, ← Matrix.mulVec_mulVec,
          Matrix.dotProduct_mulVec, ← Matrix.mulVec_transpose]
      rw [← e] at h1
      simp only [star_trivial, Matrix.sub_mulVec, Matrix.dotProduct_sub,
        Matrix.smul_mulVec_assoc, Matrix.one_mulVec, Matrix.dotProduct_smul, smul_eq_mul]
      have h2 : Matrix.dotProduct x x = ∑ i : Fin 3, x i ^ 2 := by
        simp [Matrix.dotProduct, pow_two]
      rw [h2]
      linarith
  have h1 := det_le_det_add (c • (1 : Matrix3d ℝ)) _
    (posSemidef_smul (1 : Matrix3d ℝ) Matrix.PosSemidef.one c hc) hN
  rw [add_sub_cancel] at h1
  simpa [Matrix.det_smul] using h1

theorem lkf_update_iterate_singleton (dt : ℝ) (lkf : Lkf ℝ) (k : ℕ) :
    (lkf_update dt)^[k] [lkf] = [(predict_track dt)^[k] lkf] := by
  rw [lkf_update_eq_map]
  rfl

/-- A Track that does not pass the gate and whose uncertainty exceeds the threshold is removed
by the pass. -/
theorem process_lkfs_removes (m : Libm ℝ) (p : Params ℝ) (pos_covs : List (pos_cov_t ℝ))
    (lkf : Lkf ℝ) (hgate : pos_covs ≠ [] ∨ p.m_max_update_divergence ≤ m.dbl_max)
    (hpass : passes_gate m p pos_covs lkf = false)
    (hunc : calc_LKF_uncertainty m lkf > p.m_max_lkf_uncertainty) :
    ∃ s, process_lkfs m p pos_covs [lkf] (List.replicate pos_covs.length 0) = .ok s
      ∧ s.m_lkfs = [] := by
  refine ⟨_, process_lkfs_eq m p pos_covs hgate [lkf] _ (by simp), ?_⟩
  have haft : after_association m p pos_covs lkf = lkf := by
    rcases after_association_cases m p pos_covs lkf with h | h
    · exact h.2
    · rw [hpass] at h; exact absurd h.1 (by simp)
  have hst : stays m p lkf = false := by
    simp [stays, hunc]
  simp only [survivors, List.map_cons, List.map_nil, haft, List.filter_cons, hst,
    List.filter_nil]
  simp

/-- C22: for a Track with the process noise `R = create_R` of scalar `r > 0` and a symmetric
positive-semidefinite covariance, every threshold and every `dt`, there is a number `n` such
that after `n` or more Predictor ticks with no correction the Track's uncertainty exceeds
`max_lkf_uncertainty`, and the pass of a measurement cycle in which the Track is not corrected
then removes it from the Bank. -/
theorem eventually_pruned (M : ℝ) (p : Params ℝ) (dt : ℝ) (lkf : Lkf ℝ)
    (hR : lkf.R = create_R p) (hnoise : 0 < p.m_lkf_process_noise)
    (hcov : lkf.cov.PosSemidef) :
    ∃ n : ℕ, ∀ k, n ≤ k →
      (lkf_update dt)^[k] [lkf] = [(predict_track dt)^[k] lkf]
      ∧ calc_LKF_uncertainty ⟨Real.sqrt, Real.log, M⟩ ((predict_track dt)^[k] lkf)
          > p.m_max_lkf_uncertainty
      ∧ ∀ pos_covs : List (pos_cov_t ℝ),
          (pos_covs ≠ [] ∨ p.m_max_update_divergence ≤ M) →
          passes_gate ⟨Real.sqrt, Real.log, M⟩ p pos_covs ((predict_track dt)^[k] lkf) = false →
          ∃ s, process_lkfs ⟨Real.sqrt, Real.log, M⟩ p pos_covs ((lkf_update dt)^[k] [lkf])
              (List.replicate pos_covs.length 0) = .ok s
            ∧ s.m_lkfs = [] := by
  obtain ⟨n, hn⟩ := exists_nat_gt ((|p.m_max_lkf_uncertainty| + 1) / p.m_lkf_process_noise)
  refine ⟨n, fun k hk => ?_⟩
  have hunc : calc_LKF_uncertainty ⟨Real.sqrt, Real.log, M⟩ ((predict_track dt)^[k] lkf)
      > p.m_max_lkf_uncertainty := by
    obtain ⟨_, h2, h3⟩ := predict_iterate_covariance p dt lkf hR (le_of_lt hnoise) hcov k
    have hc : |p.m_max_lkf_uncertainty| + 1 < k * p.m_lkf_process_noise := by
      have hk' : (n : ℝ) ≤ k := by exact_mod_cast hk
      have := (div_lt_iff₀ hnoise).1 (lt_of_lt_of_le hn hk')
      linarith
    have hc0 : 0 ≤ (k : ℝ) * p.m_lkf_process_noise := by
      have := abs_nonneg p.m_max_lkf_uncertainty
      linarith
    have hdet := det_block33_ge _ h2 (k * p.m_lkf_process_noise) hc0 h3
    simp only [calc_LKF_uncertainty, gt_iff_lt]
    have habs := abs_nonneg p.m_max_lkf_uncertainty
    have hle := le_abs_self p.m_max_lkf_uncertainty
    apply lt_of_le_of_lt hle
    rw [Real.lt_sqrt habs]
    have hc1 : 1 ≤ (k : ℝ) * p.m_lkf_process_noise := by linarith
    have hsq : |p.m_max_lkf_uncertainty| ^ 2 < ((k : ℝ) * p.m_lkf_process_noise) ^ 2 := by
      nlinarith
    have hcube : ((k : ℝ) * p.m_lkf_process_noise) ^ 2 ≤ ((k : ℝ) * p.m_lkf_process_noise) ^ 3 := by
      nlinarith [sq_nonneg ((k : ℝ) * p.m_lkf_process_noise)]
    linarith
  refine ⟨lkf_update_iterate_singleton dt lkf k, hunc, ?_⟩
  intro pos_covs hgate hpass
  rw [lkf_update_iterate_singleton]
  exact process_lkfs_removes _ p pos_covs _ hgate hpass hunc

/-- C22 witness: the unit Track with process noise one and threshold two, all other
parameters one. -/
theorem eventually_pruned_witness :
    ∃ n : ℕ, ∀ k, n ≤ k →
      calc_LKF_uncertainty ⟨Real.sqrt, Real.log, 2 ^ 1024⟩
          ((predict_track 1)^[k] ({ (unit_track : Lkf ℝ) with R := 1 }))
        > 2 := by
  obtain ⟨n, hn⟩ := eventually_pruned (2 ^ 1024) (test_params 1 2 1) 1
    ({ (unit_track : Lkf ℝ) with R := 1 })
    (by simp [create_R, test_params]) (by norm_num [test_params])
    (by simpa [unit_track] using (Matrix.PosSemidef.one :
      (1 : Matrix (Fin 6) (Fin 6) ℝ).PosSemidef))
  exact ⟨n, fun k hk => (hn k hk).2.1⟩

end Operation

end uav_detect
